import Mathlib

/-!
Verification of the Kruskal maze generator (`src/main.rs`).

The Rust program is shallowly embedded:
* `UnionFind` (parent-pointer vector, iterative root chasing, naive union)
  becomes a `List Nat` of parent pointers; the `while` loop of `find` is
  embedded with explicit fuel, `none` modelling a loop that runs out of fuel
  or an out-of-bounds vector access.
* `Maze::new`, `Maze::generate`, `Maze::add_map` and `print_maze` become pure
  functions; the random number generator and the `shuffle` calls are made
  explicit parameters (an entropy function for `gen_range`, the shuffled
  list itself for `shuffle`, constrained to be a permutation of the
  collected elements).
-/

set_option autoImplicit false

namespace MazeKruskal

/-! ### Union-Find (`struct UnionFind` in main.rs) -/

/-- The parent-pointer vector `parent: Vec<usize>`. -/
structure UnionFind where
  parent : List Nat
deriving DecidableEq, Repr

/-- `UnionFind::new(size)`: `parent = (0..size).collect()`. -/
def UnionFind.new (size : Nat) : UnionFind :=
  ⟨List.range size⟩

/-- The loop `while node != self.parent[node] { node = self.parent[node] }`
of `UnionFind::find`, with explicit fuel; `none` models exhausting the fuel
or an out-of-bounds access to `parent`. -/
def findFuel (p : List Nat) : Nat → Nat → Option Nat
  | 0, _ => none
  | fuel + 1, node =>
    match p[node]? with
    | none => none
    | some q => if q = node then some node else findFuel p fuel q

/-- `UnionFind::find(node)`: chase parent pointers to the root.  Fuel
`p.length` is enough on every state whose parent vector is a forest
(`findFuel_total` below). -/
def UnionFind.find (uf : UnionFind) (node : Nat) : Option Nat :=
  findFuel uf.parent uf.parent.length node

/-- `UnionFind::union(a, b)`: find both roots and graft the root of `a`
onto the root of `b` when they differ. -/
def UnionFind.union (uf : UnionFind) (a b : Nat) : Option UnionFind :=
  match uf.find a, uf.find b with
  | some root_a, some root_b =>
      some (if root_a ≠ root_b then ⟨uf.parent.set root_a root_b⟩ else uf)
  | _, _ => none

/-- The parent vector is a forest: every in-range entry is in range, and
some measure strictly decreases along non-trivial parent pointers (hence no
cycles other than self-loops at roots). -/
def Forest (p : List Nat) : Prop :=
  ∃ h : Nat → Nat, ∀ x, x < p.length →
    ∃ q, p[x]? = some q ∧ q < p.length ∧ (q ≠ x → h q < h x)

/-- The equivalence the union-find structure currently represents: both
nodes chase to one same root. -/
def SameSet (uf : UnionFind) (x y : Nat) : Prop :=
  ∃ r, uf.find x = some r ∧ uf.find y = some r

/-- Run a sequence of `union(a, b)` calls, left to right. -/
def runUnions (uf : UnionFind) : List (Nat × Nat) → Option UnionFind
  | [] => some uf
  | op :: ops =>
    match uf.union op.1 op.2 with
    | none => none
    | some uf' => runUnions uf' ops

/-- Two nodes are connected by a sequence of union calls when they are
related by the reflexive-symmetric-transitive closure of its pairs. -/
def ConnectedBy (ops : List (Nat × Nat)) (a b : Nat) : Prop :=
  Relation.EqvGen (fun x y => (x, y) ∈ ops) a b

/-! ### Maze data model (`struct Maze` in main.rs) -/

/-- `type Cell = (usize, usize)`. -/
abbrev Cell := Nat × Nat

/-- `type Wall = (Cell, Cell)`. -/
abbrev Wall := Cell × Cell

/-- `struct Maze`: `stickiness` is indexed row first (`stickiness[y][x]`),
it has `height + 2` rows of `width + 2` columns. -/
structure Maze where
  width : Nat
  height : Nat
  walls : Finset Wall
  stickiness : List (List Nat)
  open_walls : Finset Wall
deriving DecidableEq

/-- The border test of `Maze::new`:
`x == 0 || y == 0 || x == width + 1 || y == height + 1`. -/
def isBorder (width height x y : Nat) : Bool :=
  x == 0 || y == 0 || x == width + 1 || y == height + 1

/-- The wall insertions done for one non-border cell in `Maze::new`: east
wall when `x < width + 1`, south wall when `y < height + 1`. -/
def cellWalls (width height x y : Nat) : Finset Wall :=
  (if x < width + 1 then {((x, y), (x + 1, y))} else ∅) ∪
    (if y < height + 1 then {((x, y), (x, y + 1))} else ∅)

/-- The complete wall set built by the loops of `Maze::new`. -/
def mkWalls (width height : Nat) : Finset Wall :=
  (Finset.range (width + 2)).biUnion fun x =>
    (Finset.range (height + 2)).biUnion fun y =>
      if isBorder width height x y then ∅ else cellWalls width height x y

/-- `rng.gen_range(1..=9)` modelled on explicit entropy `r`: its contract
is a uniform value in `[1, 9]`. -/
def genRange19 (r : Nat) : Nat :=
  1 + r % 9

/-- The stickiness grid built by `Maze::new`: 0 on the border ring, a random
weight in `[1, 9]` on inner cells. -/
def mkStickiness (width height : Nat) (rnd : Nat → Nat → Nat) : List (List Nat) :=
  (List.range (height + 2)).map fun y =>
    (List.range (width + 2)).map fun x =>
      if isBorder width height x y then 0 else genRange19 (rnd x y)

/-- `Maze::new(width, height)`; the thread rng is the explicit `rnd`. -/
def Maze.new (width height : Nat) (rnd : Nat → Nat → Nat) : Maze :=
  { width := width
    height := height
    walls := mkWalls width height
    stickiness := mkStickiness width height rnd
    open_walls := ∅ }

/-- `cell.0 + cell.1 * (width + 2)`, the body of `Maze::cell_to_id`. -/
def cellId (width : Nat) (cell : Cell) : Nat :=
  cell.1 + cell.2 * (width + 2)

/-- `Maze::cell_to_id`: `cell.0 + cell.1 * (self.width + 2)`. -/
def Maze.cell_to_id (m : Maze) (cell : Cell) : Nat :=
  cellId m.width cell

/-- The skip test of the generation loop:
`cell1.0 == 0 || cell1.1 == 0 || cell2.0 == width + 1 || cell2.1 == height + 1`. -/
def skipWall (width height : Nat) (wall : Wall) : Bool :=
  wall.1.1 == 0 || wall.1.2 == 0 || wall.2.1 == width + 1 || wall.2.2 == height + 1

/-- The Kruskal loop of `Maze::generate` over the shuffled wall list:
skip outer walls, otherwise find both roots and, when they differ, open the
wall and union the two sets.  `none` models a panic (which the proofs below
rule out on reachable states). -/
def generateLoop (width height : Nat) :
    List Wall → UnionFind → Finset Wall → Option (UnionFind × Finset Wall)
  | [], uf, ow => some (uf, ow)
  | wall :: rest, uf, ow =>
    if skipWall width height wall then generateLoop width height rest uf ow
    else
      match uf.find (cellId width wall.1), uf.find (cellId width wall.2) with
      | some set1, some set2 =>
        if set1 ≠ set2 then
          match uf.union set1 set2 with
          | some uf' => generateLoop width height rest uf' (insert wall ow)
          | none => none
        else generateLoop width height rest uf ow
      | _, _ => none

/-- `Maze::generate`, with the shuffled wall list passed explicitly (the
caller constrains it to be a permutation of `m.walls.toList`). -/
def Maze.generate (m : Maze) (wall_list : List Wall) : Option Maze :=
  (generateLoop m.width m.height wall_list
      (UnionFind.new ((m.width + 2) * (m.height + 2))) m.open_walls).map
    fun res => { m with open_walls := res.2 }

/-- Read `stickiness[y][x]` (all uses are in range). -/
def stickAt (g : List (List Nat)) (x y : Nat) : Nat :=
  (g.getD y []).getD x 0

/-- Write `stickiness[y][x] = v` (all uses are in range). -/
def setStick (g : List (List Nat)) (x y v : Nat) : List (List Nat) :=
  g.set y ((g.getD y []).set x v)

/-- The collection loop of `Maze::add_map`: the coordinates `(x, y)` with
`stickiness[y][x] != 0`, for `y` in `1..=height` and `x` in `1..=width`. -/
def nonWallCells (m : Maze) : List Cell :=
  (List.range' 1 m.height).flatMap fun y =>
    (List.range' 1 m.width).filterMap fun x =>
      if stickAt m.stickiness x y ≠ 0 then some ((x, y) : Cell) else none

/-- `Vec::pop`: remove and return the last element. -/
def popBack (l : List Cell) : Option (Cell × List Cell) :=
  match l.getLast? with
  | none => none
  | some c => some (c, l.dropLast)

/-- `Maze::add_map`, with the shuffled cell list passed explicitly (the
caller constrains it to a permutation of `nonWallCells m`).  Pops a cell
for the start marker `b'S' = 83`, then one for the goal marker `b'G' = 71`,
then reports the warning exactly when fewer than 2 cells remain. -/
def Maze.add_map (m : Maze) (shuffled : List Cell) : Maze × Bool :=
  let s1 :=
    if 1 ≤ shuffled.length then
      match popBack shuffled with
      | some (c, rest) => ({ m with stickiness := setStick m.stickiness c.1 c.2 83 }, rest)
      | none => (m, shuffled)
    else (m, shuffled)
  let s2 :=
    if 1 ≤ s1.2.length then
      match popBack s1.2 with
      | some (c, rest) =>
          ({ s1.1 with stickiness := setStick s1.1.stickiness c.1 c.2 71 }, rest)
      | none => s1
    else s1
  (s2.1, decide (s2.2.length < 2))

/-- `char::from_digit(d, 10)`. -/
def fromDigit (d : Nat) : Option Char :=
  if d < 10 then some (Char.ofNat (48 + d)) else none

/-- One character of `print_maze` and `save_to_file`: the wall marker for
border or closed cells, the start and goal markers verbatim, otherwise the
stickiness digit; `none` models the `unwrap` panic of `char::from_digit`. -/
def renderCell (m : Maze) (x y : Nat) : Option Char :=
  if stickAt m.stickiness x y = 0 ∨
      (((x, y), (x + 1, y)) ∉ m.open_walls ∧ ((x, y), (x, y + 1)) ∉ m.open_walls) then
    some 'X'
  else if stickAt m.stickiness x y = 83 ∨ stickAt m.stickiness x y = 71 then
    some (Char.ofNat (stickAt m.stickiness x y))
  else fromDigit (stickAt m.stickiness x y)

/-- The character grid emitted by `print_maze`: `height + 2` rows of
`width + 2` characters. -/
def print_maze (m : Maze) : Option (List (List Char)) :=
  (List.range (m.height + 2)).mapM fun y =>
    (List.range (m.width + 2)).mapM fun x => renderCell m x y

/-! ### Graph notions used to state the spanning-tree claims -/

/-- Two cells are joined by an open wall (in either stored orientation). -/
def wallAdj (ow : Finset Wall) (c d : Cell) : Prop :=
  (c, d) ∈ ow ∨ (d, c) ∈ ow

/-- Connectivity along open walls. -/
def OpenConn (ow : Finset Wall) : Cell → Cell → Prop :=
  Relation.ReflTransGen (wallAdj ow)

/-- Interior cells: `1 ≤ x ≤ width`, `1 ≤ y ≤ height`. -/
def Interior (width height : Nat) (c : Cell) : Prop :=
  1 ≤ c.1 ∧ c.1 ≤ width ∧ 1 ≤ c.2 ∧ c.2 ≤ height

/-- The interior cells as a finite set. -/
def interiorCells (width height : Nat) : Finset Cell :=
  Finset.Icc 1 width ×ˢ Finset.Icc 1 height

/-- Invariant of the Kruskal loop: the union-find vector has the grid size
and stays a forest; open walls are interior candidate walls; each open wall
is a bridge of the open graph (acyclicity); the union-find equivalence on
interior cells is exactly open-wall connectivity; and the number of open
walls plus the number of union-find classes of interior cells equals the
number of interior cells. -/
def GenInv (width height : Nat) (uf : UnionFind) (ow : Finset Wall) : Prop :=
  uf.parent.length = (width + 2) * (height + 2) ∧
  Forest uf.parent ∧
  (∀ w ∈ ow, w ∈ mkWalls width height ∧ skipWall width height w = false) ∧
  (∀ w ∈ ow, ¬ OpenConn (ow.erase w) w.1 w.2) ∧
  (∀ c d, Interior width height c → Interior width height d →
    (SameSet uf (cellId width c) (cellId width d) ↔ OpenConn ow c d)) ∧
  ow.card + ((interiorCells width height).image
      fun c => uf.find (cellId width c)).card = (interiorCells width height).card

theorem forest_new (size : Nat) : Forest (UnionFind.new size).parent := by
  refine ⟨fun _ => 0, fun x hx => ?_⟩
  simp only [UnionFind.new, List.length_range] at hx ⊢
  exact ⟨x, by simp [hx], hx, fun hne => absurd rfl hne⟩

theorem findFuel_mono {p : List Nat} {f f' x r : Nat}
    (hf : findFuel p f x = some r) (hle : f ≤ f') :
    findFuel p f' x = some r := by
  induction f generalizing f' x with
  | zero => simp [findFuel] at hf
  | succ f ih =>
    obtain ⟨f'', rfl⟩ : ∃ f'', f' = f'' + 1 :=
      ⟨f' - 1, by omega⟩
    simp only [findFuel] at hf ⊢
    cases hpx : p[x]? with
    | none => simp [hpx] at hf
    | some q =>
      simp only [hpx] at hf ⊢
      by_cases hqx : q = x
      · simpa [hqx] using hf
      · simp only [hqx, if_false] at hf ⊢
        exact ih hf (by omega)

theorem findFuel_root {p : List Nat} {f x r : Nat}
    (hf : findFuel p f x = some r) : p[r]? = some r := by
  induction f generalizing x with
  | zero => simp [findFuel] at hf
  | succ f ih =>
    simp only [findFuel] at hf
    cases hpx : p[x]? with
    | none => simp [hpx] at hf
    | some q =>
      simp only [hpx] at hf
      by_cases hqx : q = x
      · subst hqx
        rw [if_pos rfl, Option.some_inj] at hf
        subst hf
        exact hpx
      · simp only [hqx, if_false] at hf
        exact ih hf

theorem findFuel_dom {p : List Nat} {f x r : Nat}
    (hf : findFuel p f x = some r) : x < p.length := by
  cases f with
  | zero => simp [findFuel] at hf
  | succ f =>
    simp only [findFuel] at hf
    cases hpx : p[x]? with
    | none => simp [hpx] at hf
    | some q => exact (List.getElem?_eq_some_iff.mp hpx).1

/-- A Nodup list of naturals all below `n` has length at most `n`. -/
theorem nodup_lt_length_le {l : List Nat} {n : Nat}
    (hnd : l.Nodup) (hlt : ∀ y ∈ l, y < n) : l.length ≤ n := by
  have hsub : l.toFinset ⊆ Finset.range n := by
    intro y hy
    exact Finset.mem_range.mpr (hlt y (List.mem_toFinset.mp hy))
  have := Finset.card_le_card hsub
  rwa [List.toFinset_card_of_nodup hnd, Finset.card_range] at this

theorem findFuel_total_aux (p : List Nat) (h : Nat → Nat)
    (H : ∀ x, x < p.length →
      ∃ q, p[x]? = some q ∧ q < p.length ∧ (q ≠ x → h q < h x)) :
    ∀ (k : Nat) (l : List Nat) (x : Nat), l.Nodup → (∀ y ∈ l, y < p.length) →
      x < p.length → x ∉ l → (∀ y ∈ l, h x < h y) →
      p.length - l.length = k → ∃ r, findFuel p k x = some r := by
  intro k
  induction k with
  | zero =>
    intro l x hnd hmem hx hxl _ hk
    exfalso
    have hnd' : (x :: l).Nodup := List.nodup_cons.mpr ⟨hxl, hnd⟩
    have hlen : (x :: l).length ≤ p.length :=
      nodup_lt_length_le hnd' (by
        intro y hy
        rcases List.mem_cons.mp hy with rfl | hy
        · exact hx
        · exact hmem y hy)
    simp only [List.length_cons] at hlen
    omega
  | succ k ih =>
    intro l x hnd hmem hx hxl hdec hk
    obtain ⟨q, hpx, hq, hqDec⟩ := H x hx
    simp only [findFuel, hpx]
    by_cases hqx : q = x
    · exact ⟨x, by simp [hqx]⟩
    · simp only [hqx, if_false]
      refine ih (x :: l) q (List.nodup_cons.mpr ⟨hxl, hnd⟩) ?_ hq ?_ ?_ ?_
      · intro y hy
        rcases List.mem_cons.mp hy with rfl | hy
        · exact hx
        · exact hmem y hy
      · intro hqmem
        rcases List.mem_cons.mp hqmem with rfl | hqmem
        · exact hqx rfl
        · exact absurd (hqDec hqx) (Nat.not_lt.mpr (Nat.le_of_lt (hdec q hqmem)))
      · intro y hy
        rcases List.mem_cons.mp hy with rfl | hy
        · exact hqDec hqx
        · exact Nat.lt_trans (hqDec hqx) (hdec y hy)
      · simp only [List.length_cons]
        omega

/-- On a forest state, `find` never exhausts its fuel: root chasing from any
in-range node reaches a root. -/
theorem find_total {uf : UnionFind} (hF : Forest uf.parent) {x : Nat}
    (hx : x < uf.parent.length) : ∃ r, uf.find x = some r := by
  obtain ⟨h, H⟩ := hF
  exact findFuel_total_aux uf.parent h H uf.parent.length [] x
    List.nodup_nil (by intro y hy; cases hy) hx (by intro hy; cases hy)
    (by intro y hy; cases hy) rfl

/-- Roots returned by `find` are in range and self-parented. -/
theorem find_root {uf : UnionFind} {x r : Nat} (hf : uf.find x = some r) :
    uf.parent[r]? = some r ∧ r < uf.parent.length := by
  have hr := findFuel_root hf
  exact ⟨hr, (List.getElem?_eq_some_iff.mp hr).1⟩

/-- `find` at a self-parented node returns that node. -/
theorem find_self {uf : UnionFind} {r : Nat} (hr : uf.parent[r]? = some r) :
    uf.find r = some r := by
  have hlt : r < uf.parent.length := (List.getElem?_eq_some_iff.mp hr).1
  obtain ⟨f, hf⟩ : ∃ f, uf.parent.length = f + 1 := ⟨uf.parent.length - 1, by omega⟩
  rw [UnionFind.find, hf]
  simp [findFuel, hr]

/-- One step of root chasing does not change the root. -/
theorem find_parent {uf : UnionFind} (hF : Forest uf.parent) {x q : Nat}
    (hpx : uf.parent[x]? = some q) : uf.find x = uf.find q := by
  have hx : x < uf.parent.length := (List.getElem?_eq_some_iff.mp hpx).1
  by_cases hqx : q = x
  · rw [hqx]
  · obtain ⟨r, hr⟩ := find_total hF hx
    obtain ⟨f, hf⟩ : ∃ f, uf.parent.length = f + 1 := ⟨uf.parent.length - 1, by omega⟩
    have hstep : findFuel uf.parent (f + 1) x = findFuel uf.parent f q := by
      simp [findFuel, hpx, hqx]
    have hr' : findFuel uf.parent f q = some r := by
      have := hr
      rw [UnionFind.find, hf, hstep] at this
      exact this
    rw [hr, UnionFind.find, findFuel_mono hr' (by omega)]

/-- Grafting the root `ra` onto the distinct root `rb` preserves the forest
invariant. -/
theorem forest_set {uf : UnionFind} (hF : Forest uf.parent) {ra rb : Nat}
    (hra : uf.parent[ra]? = some ra) (hrb : uf.parent[rb]? = some rb)
    (hne : ra ≠ rb) : Forest (uf.parent.set ra rb) := by
  obtain ⟨h, H⟩ := hF
  have hraLt : ra < uf.parent.length := (List.getElem?_eq_some_iff.mp hra).1
  have hrbLt : rb < uf.parent.length := (List.getElem?_eq_some_iff.mp hrb).1
  refine ⟨fun x => if uf.find x = some ra then h x + h rb + 1 else h x, ?_⟩
  intro x hx
  rw [List.length_set] at hx
  by_cases hxa : x = ra
  · refine ⟨rb, ?_, by rwa [List.length_set], ?_⟩
    · rw [hxa]
      exact List.getElem?_set_eq_of_lt rb hraLt
    · intro _
      show (if uf.find rb = some ra then h rb + h rb + 1 else h rb) <
        (if uf.find x = some ra then h x + h rb + 1 else h x)
      rw [find_self hrb, if_neg (fun hc => hne (Option.some_inj.mp hc).symm),
        hxa, find_self hra, if_pos rfl]
      omega
  · obtain ⟨q, hpx, hq, hdec⟩ := H x hx
    refine ⟨q, ?_, by rwa [List.length_set], ?_⟩
    · rw [List.getElem?_set_ne (fun hc => hxa hc.symm)]
      exact hpx
    · intro hqx
      show (if uf.find q = some ra then h q + h rb + 1 else h q) <
        (if uf.find x = some ra then h x + h rb + 1 else h x)
      have hfind : uf.find x = uf.find q := find_parent ⟨h, H⟩ hpx
      have := hdec hqx
      rw [hfind]
      by_cases hcase : uf.find q = some ra
      · rw [if_pos hcase, if_pos hcase]; omega
      · rw [if_neg hcase, if_neg hcase]; omega

/-- Effect of grafting `ra` onto `rb` on the root function: the old class of
`ra` now reports root `rb`; every other class is untouched. -/
theorem find_set {uf : UnionFind} (hF : Forest uf.parent) {ra rb : Nat}
    (hra : uf.parent[ra]? = some ra) (hrb : uf.parent[rb]? = some rb)
    (hne : ra ≠ rb) {x : Nat} (hx : x < uf.parent.length) :
    (UnionFind.mk (uf.parent.set ra rb)).find x =
      if uf.find x = some ra then some rb else uf.find x := by
  have hF' : Forest (uf.parent.set ra rb) := forest_set hF hra hrb hne
  have hraLt : ra < uf.parent.length := (List.getElem?_eq_some_iff.mp hra).1
  obtain ⟨h, H⟩ := hF
  have rootCase : ∀ y, uf.parent[y]? = some y →
      (UnionFind.mk (uf.parent.set ra rb)).find y =
        if uf.find y = some ra then some rb else uf.find y := by
    intro y hpy
    by_cases hya : y = ra
    · have hp'y : (uf.parent.set ra rb)[y]? = some rb := by
        rw [hya]
        exact List.getElem?_set_eq_of_lt rb hraLt
      have hp'rb : (uf.parent.set ra rb)[rb]? = some rb := by
        rw [List.getElem?_set_ne hne]
        exact hrb
      have h1 : (UnionFind.mk (uf.parent.set ra rb)).find y =
          (UnionFind.mk (uf.parent.set ra rb)).find rb := find_parent hF' hp'y
      rw [h1, find_self hp'rb, find_self hpy, hya, if_pos rfl]
    · have hp'y : (uf.parent.set ra rb)[y]? = some y := by
        rw [List.getElem?_set_ne (fun hc => hya hc.symm)]
        exact hpy
      rw [find_self hp'y, find_self hpy,
        if_neg (fun hc => hya (Option.some_inj.mp hc))]
  have main : ∀ n y, h y ≤ n → y < uf.parent.length →
      (UnionFind.mk (uf.parent.set ra rb)).find y =
        if uf.find y = some ra then some rb else uf.find y := by
    intro n
    induction n with
    | zero =>
      intro y hyn hy
      obtain ⟨q, hpy, hq, hdec⟩ := H y hy
      by_cases hqy : q = y
      · subst hqy
        exact rootCase q hpy
      · exact absurd (hdec hqy) (by omega)
    | succ n ih =>
      intro y hyn hy
      obtain ⟨q, hpy, hq, hdec⟩ := H y hy
      by_cases hqy : q = y
      · subst hqy
        exact rootCase q hpy
      · have hya : y ≠ ra := by
          intro hc
          rw [hc] at hpy
          have hqra : q = ra := Option.some_inj.mp (hpy.symm.trans hra)
          exact hqy (hqra.trans hc.symm)
        have hp'y : (uf.parent.set ra rb)[y]? = some q := by
          rw [List.getElem?_set_ne (fun hc => hya hc.symm)]
          exact hpy
        have h1 : (UnionFind.mk (uf.parent.set ra rb)).find y =
            (UnionFind.mk (uf.parent.set ra rb)).find q := find_parent hF' hp'y
        have h2 : uf.find y = uf.find q := find_parent ⟨h, H⟩ hpy
        rw [h1, h2, ih q (by have := hdec hqy; omega) hq]
  exact main (h x) x (Nat.le_refl _) hx

theorem sameSet_dom {uf : UnionFind} {x y : Nat} (h : SameSet uf x y) :
    x < uf.parent.length ∧ y < uf.parent.length := by
  obtain ⟨r, hx, hy⟩ := h
  exact ⟨findFuel_dom hx, findFuel_dom hy⟩

theorem sameSet_refl {uf : UnionFind} (hF : Forest uf.parent) {x : Nat}
    (hx : x < uf.parent.length) : SameSet uf x x := by
  obtain ⟨r, hr⟩ := find_total hF hx
  exact ⟨r, hr, hr⟩

theorem sameSet_symm {uf : UnionFind} {x y : Nat} (h : SameSet uf x y) :
    SameSet uf y x := by
  obtain ⟨r, hx, hy⟩ := h
  exact ⟨r, hy, hx⟩

theorem sameSet_trans {uf : UnionFind} {x y z : Nat} (h1 : SameSet uf x y)
    (h2 : SameSet uf y z) : SameSet uf x z := by
  obtain ⟨r, hx, hy⟩ := h1
  obtain ⟨r', hy', hz⟩ := h2
  exact ⟨r, hx, (Option.some_inj.mp (hy'.symm.trans hy)) ▸ hz⟩

theorem eqvGen_of_sub {α : Type} {r s : α → α → Prop}
    (h : ∀ u v, r u v → Relation.EqvGen s u v) {x y : α}
    (he : Relation.EqvGen r x y) : Relation.EqvGen s x y := by
  induction he with
  | rel u v huv => exact h u v huv
  | refl u => exact Relation.EqvGen.refl u
  | symm u v _ ih => exact Relation.EqvGen.symm u v ih
  | trans u v w _ _ ih1 ih2 => exact Relation.EqvGen.trans u v w ih1 ih2

theorem eqvGen_elim {α : Type} {r : α → α → Prop}
    (hsymm : ∀ u v, r u v → r v u)
    (htrans : ∀ u v w, r u v → r v w → r u w) {x y : α}
    (he : Relation.EqvGen r x y) : x = y ∨ r x y := by
  induction he with
  | rel u v huv => exact Or.inr huv
  | refl u => exact Or.inl rfl
  | symm u v _ ih =>
    rcases ih with rfl | h
    · exact Or.inl rfl
    · exact Or.inr (hsymm _ _ h)
  | trans u v w _ _ ih1 ih2 =>
    rcases ih1 with rfl | h1
    · exact ih2
    · rcases ih2 with rfl | h2
      · exact Or.inr h1
      · exact Or.inr (htrans _ _ _ h1 h2)

/-- `union(a, b)` succeeds on a forest state, preserves the forest shape and
the vector length, and merges exactly the classes of `a` and `b`. -/
theorem union_spec {uf : UnionFind} (hF : Forest uf.parent) {a b : Nat}
    (ha : a < uf.parent.length) (hb : b < uf.parent.length) :
    ∃ uf', uf.union a b = some uf' ∧
      uf'.parent.length = uf.parent.length ∧ Forest uf'.parent ∧
      ∀ x y, SameSet uf' x y ↔
        (SameSet uf x y ∨ (SameSet uf x a ∧ SameSet uf b y) ∨
          (SameSet uf x b ∧ SameSet uf a y)) := by
  obtain ⟨ra, hra⟩ := find_total hF ha
  obtain ⟨rb, hrb⟩ := find_total hF hb
  have hraRoot := (find_root hra).1
  have hrbRoot := (find_root hrb).1
  by_cases hrarb : ra = rb
  · refine ⟨uf, by simp [UnionFind.union, hra, hrb, hrarb], rfl, hF, ?_⟩
    intro x y
    constructor
    · exact fun h => Or.inl h
    · rintro (h | ⟨⟨r1, hx, hxa⟩, ⟨r2, hb2, hy⟩⟩ | ⟨⟨r1, hx, hxb⟩, ⟨r2, ha2, hy⟩⟩)
      · exact h
      · have e1 : r1 = ra := Option.some_inj.mp (hxa.symm.trans hra)
        have e2 : r2 = rb := Option.some_inj.mp (hb2.symm.trans hrb)
        exact ⟨r1, hx, by rw [e1, hrarb, ← e2]; exact hy⟩
      · have e1 : r1 = rb := Option.some_inj.mp (hxb.symm.trans hrb)
        have e2 : r2 = ra := Option.some_inj.mp (ha2.symm.trans hra)
        exact ⟨r1, hx, by rw [e1, ← hrarb, ← e2]; exact hy⟩
  · have hF' : Forest (uf.parent.set ra rb) := forest_set hF hraRoot hrbRoot hrarb
    have hswap : ∀ z, z < uf.parent.length →
        (UnionFind.mk (uf.parent.set ra rb)).find z =
          if uf.find z = some ra then some rb else uf.find z := by
      intro z hz
      exact find_set ⟨(hF.choose), hF.choose_spec⟩ hraRoot hrbRoot hrarb hz
    refine ⟨⟨uf.parent.set ra rb⟩, by simp [UnionFind.union, hra, hrb, hrarb],
      by simp [List.length_set], hF', ?_⟩
    intro x y
    constructor
    · rintro ⟨r, hx', hy'⟩
      have hxlt : x < uf.parent.length := by
        have := findFuel_dom hx'
        simpa [List.length_set] using this
      have hylt : y < uf.parent.length := by
        have := findFuel_dom hy'
        simpa [List.length_set] using this
      obtain ⟨rx, hrx⟩ := find_total hF hxlt
      obtain ⟨ry, hry⟩ := find_total hF hylt
      rw [hswap x hxlt, hrx] at hx'
      rw [hswap y hylt, hry] at hy'
      by_cases hxa : rx = ra
      · rw [if_pos (by rw [hxa])] at hx'
        by_cases hya : ry = ra
        · exact Or.inl ⟨ra, by rw [hrx, hxa], by rw [hry, hya]⟩
        · rw [if_neg (fun hc => hya (Option.some_inj.mp hc))] at hy'
          have e1 : rb = r := Option.some_inj.mp hx'
          have e2 : ry = r := Option.some_inj.mp hy'
          refine Or.inr (Or.inl ⟨⟨ra, by rw [hrx, hxa], hra⟩, ⟨rb, hrb, ?_⟩⟩)
          rw [hry, e2, ← e1]
      · rw [if_neg (fun hc => hxa (Option.some_inj.mp hc))] at hx'
        by_cases hya : ry = ra
        · rw [if_pos (by rw [hya])] at hy'
          have e1 : rx = r := Option.some_inj.mp hx'
          have e2 : rb = r := Option.some_inj.mp hy'
          refine Or.inr (Or.inr ⟨⟨rb, ?_, hrb⟩, ⟨ra, hra, by rw [hry, hya]⟩⟩)
          rw [hrx, e1, ← e2]
        · rw [if_neg (fun hc => hya (Option.some_inj.mp hc))] at hy'
          exact Or.inl ⟨r, by rw [hrx, ← hx'], by rw [hry, ← hy']⟩
    · rintro (⟨r, hx, hy⟩ | ⟨⟨r1, hx, hxa⟩, ⟨r2, hb2, hy⟩⟩ | ⟨⟨r1, hx, hxb⟩, ⟨r2, ha2, hy⟩⟩)
      · have hxlt : x < uf.parent.length := findFuel_dom hx
        have hylt : y < uf.parent.length := findFuel_dom hy
        by_cases hcase : r = ra
        · exact ⟨rb, by rw [hswap x hxlt, hx, if_pos (by rw [hcase])],
            by rw [hswap y hylt, hy, if_pos (by rw [hcase])]⟩
        · exact ⟨r, by rw [hswap x hxlt, hx,
              if_neg (fun hc => hcase (Option.some_inj.mp hc))],
            by rw [hswap y hylt, hy,
              if_neg (fun hc => hcase (Option.some_inj.mp hc))]⟩
      · have e1 : r1 = ra := Option.some_inj.mp (hxa.symm.trans hra)
        have e2 : r2 = rb := Option.some_inj.mp (hb2.symm.trans hrb)
        have hxlt : x < uf.parent.length := findFuel_dom hx
        have hylt : y < uf.parent.length := findFuel_dom hy
        refine ⟨rb, by rw [hswap x hxlt, hx, e1, if_pos rfl], ?_⟩
        rw [hswap y hylt, hy, e2,
          if_neg (fun hc => hrarb (Option.some_inj.mp hc).symm)]
      · have e1 : r1 = rb := Option.some_inj.mp (hxb.symm.trans hrb)
        have e2 : r2 = ra := Option.some_inj.mp (ha2.symm.trans hra)
        have hxlt : x < uf.parent.length := findFuel_dom hx
        have hylt : y < uf.parent.length := findFuel_dom hy
        refine ⟨rb, ?_, by rw [hswap y hylt, hy, e2, if_pos rfl]⟩
        rw [hswap x hxlt, hx, e1,
          if_neg (fun hc => hrarb (Option.some_inj.mp hc).symm)]

theorem new_parent_length (size : Nat) :
    (UnionFind.new size).parent.length = size := by
  simp [UnionFind.new]

theorem find_new {size x : Nat} (hx : x < size) :
    (UnionFind.new size).find x = some x :=
  find_self (by simp [UnionFind.new, List.getElem?_range, hx])

/-- Running a list of unions from any forest state succeeds, preserves the
forest shape, and afterwards two in-range nodes are in one set exactly when
the union pairs together with the pre-existing sets connect them. -/
theorem runUnions_spec (ops : List (Nat × Nat)) :
    ∀ uf : UnionFind, Forest uf.parent →
    (∀ op ∈ ops, op.1 < uf.parent.length ∧ op.2 < uf.parent.length) →
    ∃ uf', runUnions uf ops = some uf' ∧
      uf'.parent.length = uf.parent.length ∧ Forest uf'.parent ∧
      ∀ x y, x < uf.parent.length → y < uf.parent.length →
        (SameSet uf' x y ↔
          Relation.EqvGen (fun u v => SameSet uf u v ∨ (u, v) ∈ ops) x y) := by
  induction ops with
  | nil =>
    intro uf hF _
    refine ⟨uf, rfl, rfl, hF, ?_⟩
    intro x y hx _
    constructor
    · intro h
      exact Relation.EqvGen.rel x y (Or.inl h)
    · intro h
      have hsym : ∀ u v, (SameSet uf u v ∨ (u, v) ∈ ([] : List (Nat × Nat))) →
          (SameSet uf v u ∨ (v, u) ∈ ([] : List (Nat × Nat))) := by
        rintro u v (h' | h')
        · exact Or.inl (sameSet_symm h')
        · cases h'
      have htrans : ∀ u v w,
          (SameSet uf u v ∨ (u, v) ∈ ([] : List (Nat × Nat))) →
          (SameSet uf v w ∨ (v, w) ∈ ([] : List (Nat × Nat))) →
          (SameSet uf u w ∨ (u, w) ∈ ([] : List (Nat × Nat))) := by
        rintro u v w (h1 | h1) (h2 | h2)
        · exact Or.inl (sameSet_trans h1 h2)
        · cases h2
        · cases h1
        · cases h1
      rcases eqvGen_elim hsym htrans h with rfl | h'
      · exact sameSet_refl hF hx
      · rcases h' with h' | h'
        · exact h'
        · cases h'
  | cons op ops ih =>
    intro uf hF hops
    obtain ⟨ha, hb⟩ := hops op (List.mem_cons_self op ops)
    obtain ⟨uf1, hu, hlen1, hF1, hiff1⟩ := union_spec hF ha hb
    have hrun : runUnions uf (op :: ops) = runUnions uf1 ops := by
      simp [runUnions, hu]
    obtain ⟨uf', hrun', hlen', hF', hiff'⟩ := ih uf1 hF1 (by
      intro o ho
      rw [hlen1]
      exact hops o (List.mem_cons_of_mem _ ho))
    refine ⟨uf', by rw [hrun]; exact hrun', by rw [hlen', hlen1], hF', ?_⟩
    intro x y hx hy
    rw [hiff' x y (by rw [hlen1]; exact hx) (by rw [hlen1]; exact hy)]
    have hopmem : (op.1, op.2) ∈ op :: ops := List.mem_cons_self op ops
    constructor
    · intro h
      refine eqvGen_of_sub ?_ h
      rintro u v (huv | huv)
      · rcases (hiff1 u v).mp huv with h0 | ⟨h1, h2⟩ | ⟨h1, h2⟩
        · exact Relation.EqvGen.rel u v (Or.inl h0)
        · exact Relation.EqvGen.trans u op.1 v
            (Relation.EqvGen.rel _ _ (Or.inl h1))
            (Relation.EqvGen.trans op.1 op.2 v
              (Relation.EqvGen.rel _ _ (Or.inr hopmem))
              (Relation.EqvGen.rel _ _ (Or.inl h2)))
        · exact Relation.EqvGen.trans u op.2 v
            (Relation.EqvGen.rel _ _ (Or.inl h1))
            (Relation.EqvGen.trans op.2 op.1 v
              (Relation.EqvGen.symm _ _
                (Relation.EqvGen.rel _ _ (Or.inr hopmem)))
              (Relation.EqvGen.rel _ _ (Or.inl h2)))
      · exact Relation.EqvGen.rel u v (Or.inr (List.mem_cons_of_mem _ huv))
    · intro h
      refine eqvGen_of_sub ?_ h
      rintro u v (huv | huv)
      · exact Relation.EqvGen.rel u v (Or.inl ((hiff1 u v).mpr (Or.inl huv)))
      · rcases List.mem_cons.mp huv with heq | hmem
        · have hu1 : u = op.1 := congrArg Prod.fst heq
          have hv2 : v = op.2 := congrArg Prod.snd heq
          refine Relation.EqvGen.rel u v (Or.inl ((hiff1 u v).mpr
            (Or.inr (Or.inl ⟨?_, ?_⟩))))
          · rw [hu1]
            exact sameSet_refl hF ha
          · rw [hv2]
            exact sameSet_refl hF hb
        · exact Relation.EqvGen.rel u v (Or.inr hmem)

/-- C2: on a freshly constructed union-find, after any valid sequence of
`union` calls, `find(a) == find(b)` holds exactly when `a` and `b` were
connected (directly or transitively) by prior union calls. -/
theorem c2_unionfind_find_iff_connected (size : Nat) (ops : List (Nat × Nat))
    (hops : ∀ op ∈ ops, op.1 < size ∧ op.2 < size) :
    ∃ uf', runUnions (UnionFind.new size) ops = some uf' ∧
      ∀ a b, a < size → b < size →
        (uf'.find a = uf'.find b ↔ ConnectedBy ops a b) := by
  obtain ⟨uf', hrun, hlen, hF', hiff⟩ :=
    runUnions_spec ops (UnionFind.new size) (forest_new size)
      (by simpa [new_parent_length] using hops)
  refine ⟨uf', hrun, ?_⟩
  intro a b ha hb
  have ha' : a < (UnionFind.new size).parent.length := by
    rw [new_parent_length]; exact ha
  have hb' : b < (UnionFind.new size).parent.length := by
    rw [new_parent_length]; exact hb
  constructor
  · intro heq
    obtain ⟨r, hrfind⟩ := find_total hF' (by
      rw [hlen, new_parent_length]; exact ha)
    have hss : SameSet uf' a b := ⟨r, hrfind, heq ▸ hrfind⟩
    have hgen := (hiff a b ha' hb').mp hss
    show Relation.EqvGen (fun x y => (x, y) ∈ ops) a b
    refine eqvGen_of_sub ?_ hgen
    rintro u v (huv | huv)
    · obtain ⟨r', hu, hv⟩ := huv
      have hult : u < size := by
        have := findFuel_dom hu
        rwa [new_parent_length] at this
      have hvlt : v < size := by
        have := findFuel_dom hv
        rwa [new_parent_length] at this
      rw [find_new hult] at hu
      rw [find_new hvlt] at hv
      have huv' : u = v :=
        (Option.some_inj.mp hu).trans (Option.some_inj.mp hv).symm
      exact huv' ▸ Relation.EqvGen.refl u
    · exact Relation.EqvGen.rel u v huv
  · intro hconn
    have hconn' : Relation.EqvGen (fun x y => (x, y) ∈ ops) a b := hconn
    have hss : SameSet uf' a b := (hiff a b ha' hb').mpr
      (eqvGen_of_sub (fun u v huv => Relation.EqvGen.rel u v (Or.inr huv)) hconn')
    obtain ⟨r, h1, h2⟩ := hss
    rw [h1, h2]

/-- Witness for C2 at `size = 2`, `ops = [(0, 1)]`. -/
theorem c2_unionfind_find_iff_connected_witness :
    ∃ uf', runUnions (UnionFind.new 2) [(0, 1)] = some uf' ∧
      ∀ a b, a < 2 → b < 2 →
        (uf'.find a = uf'.find b ↔ ConnectedBy [(0, 1)] a b) :=
  c2_unionfind_find_iff_connected 2 [(0, 1)] (by decide)

/-! ### Grid arithmetic and wall-set characterisations -/

theorem cellId_lt {width height : Nat} {c : Cell} (hx : c.1 < width + 2)
    (hy : c.2 < height + 2) : cellId width c < (width + 2) * (height + 2) := by
  have h1 : cellId width c < (c.2 + 1) * (width + 2) := by
    simp only [cellId, Nat.succ_mul]
    omega
  have h2 : (c.2 + 1) * (width + 2) ≤ (height + 2) * (width + 2) :=
    Nat.mul_le_mul_right _ hy
  calc cellId width c < (c.2 + 1) * (width + 2) := h1
    _ ≤ (height + 2) * (width + 2) := h2
    _ = (width + 2) * (height + 2) := Nat.mul_comm _ _

theorem cellId_inj {width : Nat} {c d : Cell} (hc : c.1 < width + 2)
    (hd : d.1 < width + 2) (h : cellId width c = cellId width d) : c = d := by
  simp only [cellId] at h
  have hx : c.1 = d.1 := by
    have h1 : (c.1 + c.2 * (width + 2)) % (width + 2) = c.1 :=
      by rw [Nat.add_mul_mod_self_right]; exact Nat.mod_eq_of_lt hc
    have h2 : (d.1 + d.2 * (width + 2)) % (width + 2) = d.1 :=
      by rw [Nat.add_mul_mod_self_right]; exact Nat.mod_eq_of_lt hd
    rw [← h1, ← h2, h]
  have hy : c.2 = d.2 := by
    have h3 : c.2 * (width + 2) = d.2 * (width + 2) := by omega
    exact Nat.eq_of_mul_eq_mul_right (by omega) h3
  exact Prod.ext hx hy

theorem isBorder_false_iff {width height x y : Nat} :
    isBorder width height x y = false ↔
      (x ≠ 0 ∧ y ≠ 0 ∧ x ≠ width + 1 ∧ y ≠ height + 1) := by
  simp [isBorder, and_assoc]

theorem skipWall_false_iff {width height : Nat} {w : Wall} :
    skipWall width height w = false ↔
      (w.1.1 ≠ 0 ∧ w.1.2 ≠ 0 ∧ w.2.1 ≠ width + 1 ∧ w.2.2 ≠ height + 1) := by
  simp [skipWall, and_assoc]

/-- Membership in the constructed wall set: exactly the east and south walls
of interior cells. -/
theorem mem_mkWalls {width height : Nat} {w : Wall} :
    w ∈ mkWalls width height ↔
      ∃ x y, 1 ≤ x ∧ x ≤ width ∧ 1 ≤ y ∧ y ≤ height ∧
        (w = ((x, y), (x + 1, y)) ∨ w = ((x, y), (x, y + 1))) := by
  constructor
  · intro hw
    simp only [mkWalls, Finset.mem_biUnion, Finset.mem_range] at hw
    obtain ⟨x, hx, y, hy, hw⟩ := hw
    cases hval : isBorder width height x y with
    | true => simp [hval] at hw
    | false =>
      simp only [hval, Bool.false_eq_true, if_false] at hw
      obtain ⟨hx0, hy0, hxw, hyh⟩ := isBorder_false_iff.mp hval
      have hxle : x ≤ width := by omega
      have hyle : y ≤ height := by omega
      refine ⟨x, y, by omega, hxle, by omega, hyle, ?_⟩
      simp only [cellWalls, Finset.mem_union] at hw
      rcases hw with hw | hw
      · rw [if_pos (by omega)] at hw
        exact Or.inl (Finset.mem_singleton.mp hw)
      · rw [if_pos (by omega)] at hw
        exact Or.inr (Finset.mem_singleton.mp hw)
  · rintro ⟨x, y, hx1, hxw, hy1, hyh, hw⟩
    simp only [mkWalls, Finset.mem_biUnion, Finset.mem_range]
    refine ⟨x, by omega, y, by omega, ?_⟩
    rw [if_neg (by
      rw [Bool.not_eq_true]
      exact isBorder_false_iff.mpr ⟨by omega, by omega, by omega, by omega⟩)]
    simp only [cellWalls, Finset.mem_union]
    rcases hw with rfl | rfl
    · exact Or.inl (by rw [if_pos (by omega)]; exact Finset.mem_singleton_self _)
    · exact Or.inr (by rw [if_pos (by omega)]; exact Finset.mem_singleton_self _)

/-- An eligible (non-skipped) candidate wall joins two interior cells. -/
theorem eligible_wall_shape {width height : Nat} {w : Wall}
    (hmem : w ∈ mkWalls width height)
    (hskip : skipWall width height w = false) :
    Interior width height w.1 ∧ Interior width height w.2 := by
  obtain ⟨x, y, hx1, hxw, hy1, hyh, hw⟩ := mem_mkWalls.mp hmem
  obtain ⟨h1, h2, h3, h4⟩ := skipWall_false_iff.mp hskip
  rcases hw with rfl | rfl
  · have h3' : x + 1 ≠ width + 1 := h3
    refine ⟨⟨hx1, hxw, hy1, hyh⟩, ?_⟩
    show 1 ≤ x + 1 ∧ x + 1 ≤ width ∧ 1 ≤ y ∧ y ≤ height
    exact ⟨by omega, by omega, hy1, hyh⟩
  · have h4' : y + 1 ≠ height + 1 := h4
    refine ⟨⟨hx1, hxw, hy1, hyh⟩, ?_⟩
    show 1 ≤ x ∧ x ≤ width ∧ 1 ≤ y + 1 ∧ y + 1 ≤ height
    exact ⟨hx1, hxw, by omega, by omega⟩

/-! ### Open-wall connectivity lemmas -/

theorem wallAdj_symm {ow : Finset Wall} {c d : Cell} (h : wallAdj ow c d) :
    wallAdj ow d c :=
  h.symm

theorem openConn_refl {ow : Finset Wall} (c : Cell) : OpenConn ow c c :=
  Relation.ReflTransGen.refl

theorem openConn_trans {ow : Finset Wall} {c d e : Cell} (h1 : OpenConn ow c d)
    (h2 : OpenConn ow d e) : OpenConn ow c e :=
  Relation.ReflTransGen.trans h1 h2

theorem openConn_symm {ow : Finset Wall} {c d : Cell} (h : OpenConn ow c d) :
    OpenConn ow d c := by
  induction h with
  | refl => exact Relation.ReflTransGen.refl
  | tail _ hadj ih =>
    exact Relation.ReflTransGen.trans
      (Relation.ReflTransGen.single (wallAdj_symm hadj)) ih

theorem openConn_mono {ow ow' : Finset Wall} (hsub : ow ⊆ ow') {c d : Cell}
    (h : OpenConn ow c d) : OpenConn ow' c d :=
  Relation.ReflTransGen.mono
    (fun _ _ huv => huv.imp (fun h' => hsub h') (fun h' => hsub h')) h

theorem openConn_empty {c d : Cell} (h : OpenConn (∅ : Finset Wall) c d) :
    c = d := by
  induction h with
  | refl => rfl
  | tail _ hadj _ =>
    rcases hadj with hmem | hmem
    · exact absurd hmem (Finset.not_mem_empty _)
    · exact absurd hmem (Finset.not_mem_empty _)

theorem openConn_single {ow : Finset Wall} {w : Wall} (hw : w ∈ ow) :
    OpenConn ow w.1 w.2 :=
  Relation.ReflTransGen.single (Or.inl (by
    have : (w.1, w.2) = w := rfl
    rw [this]
    exact hw))

/-- Path decomposition over an inserted edge: a path in `insert e ow` either
avoids `e` or splits at `e` in one of its two orientations. -/
theorem openConn_insert {ow : Finset Wall} {e : Wall} {c d : Cell}
    (h : OpenConn (insert e ow) c d) :
    OpenConn ow c d ∨ (OpenConn ow c e.1 ∧ OpenConn ow e.2 d) ∨
      (OpenConn ow c e.2 ∧ OpenConn ow e.1 d) := by
  induction h with
  | refl => exact Or.inl (openConn_refl c)
  | @tail b d' _ hadj ih =>
    rcases hadj with hmem | hmem
    · rcases Finset.mem_insert.mp hmem with heq | hmem'
      · have hb : b = e.1 := congrArg Prod.fst heq
        have hd : d' = e.2 := congrArg Prod.snd heq
        rcases ih with h0 | ⟨h1, _⟩ | ⟨h1, _⟩
        · exact Or.inr (Or.inl ⟨hb ▸ h0, hd ▸ openConn_refl _⟩)
        · exact Or.inr (Or.inl ⟨h1, hd ▸ openConn_refl _⟩)
        · exact Or.inl (hd ▸ h1)
      · rcases ih with h0 | ⟨h1, h2⟩ | ⟨h1, h2⟩
        · exact Or.inl (h0.tail (Or.inl hmem'))
        · exact Or.inr (Or.inl ⟨h1, h2.tail (Or.inl hmem')⟩)
        · exact Or.inr (Or.inr ⟨h1, h2.tail (Or.inl hmem')⟩)
    · rcases Finset.mem_insert.mp hmem with heq | hmem'
      · have hd : d' = e.1 := congrArg Prod.fst heq
        have hb : b = e.2 := congrArg Prod.snd heq
        rcases ih with h0 | ⟨h1, _⟩ | ⟨h1, _⟩
        · exact Or.inr (Or.inr ⟨hb ▸ h0, hd ▸ openConn_refl _⟩)
        · exact Or.inl (hd ▸ h1)
        · exact Or.inr (Or.inr ⟨h1, hd ▸ openConn_refl _⟩)
      · rcases ih with h0 | ⟨h1, h2⟩ | ⟨h1, h2⟩
        · exact Or.inl (h0.tail (Or.inr hmem'))
        · exact Or.inr (Or.inl ⟨h1, h2.tail (Or.inr hmem')⟩)
        · exact Or.inr (Or.inr ⟨h1, h2.tail (Or.inr hmem')⟩)

/-- Effect of `union(a, b)` on the root function, phrased through `find`. -/
theorem union_find_swap {uf uf' : UnionFind} (hF : Forest uf.parent)
    {a b : Nat} (ha : a < uf.parent.length) (hb : b < uf.parent.length)
    (hu : uf.union a b = some uf') :
    ∀ z, z < uf.parent.length →
      uf'.find z = if uf.find z = uf.find a then uf.find b else uf.find z := by
  obtain ⟨ra, hra⟩ := find_total hF ha
  obtain ⟨rb, hrb⟩ := find_total hF hb
  have hraRoot := (find_root hra).1
  have hrbRoot := (find_root hrb).1
  intro z hz
  by_cases hrarb : ra = rb
  · have huf : uf' = uf := by
      simp only [UnionFind.union, hra, hrb, hrarb, ne_eq, not_true_eq_false,
        if_false, Option.some_inj] at hu
      exact hu.symm
    rw [huf, hra, hrb]
    by_cases hz' : uf.find z = some ra
    · rw [if_pos hz', hz', hrarb]
    · rw [if_neg hz']
  · have huf : uf' = UnionFind.mk (uf.parent.set ra rb) := by
      simp only [UnionFind.union, hra, hrb, hrarb, ne_eq, not_false_eq_true,
        if_true, Option.some_inj] at hu
      exact hu.symm
    rw [huf, hra, hrb]
    exact find_set hF hraRoot hrbRoot hrarb hz

/-- Redirecting one element of a finite set of root values onto another
shrinks the cardinality by exactly one. -/
theorem image_merge_card {T : Finset (Option Nat)} {u v : Option Nat}
    (hu : u ∈ T) (hv : v ∈ T) (hne : u ≠ v) :
    (T.image fun r => if r = u then v else r).card + 1 = T.card := by
  have himg : (T.image fun r => if r = u then v else r) = T.erase u := by
    ext z
    simp only [Finset.mem_image, Finset.mem_erase]
    constructor
    · rintro ⟨t, ht, rfl⟩
      by_cases htu : t = u
      · rw [if_pos htu]
        exact ⟨fun hc => hne hc.symm, hv⟩
      · rw [if_neg htu]
        exact ⟨htu, ht⟩
    · rintro ⟨hzu, hzT⟩
      exact ⟨z, hzT, by rw [if_neg hzu]⟩
  rw [himg, Finset.card_erase_of_mem hu]
  have : 0 < T.card := Finset.card_pos.mpr ⟨u, hu⟩
  omega

theorem sameSet_iff_find_eq_some {uf : UnionFind} {z r : Nat}
    (hr : uf.find r = some r) : SameSet uf z r ↔ uf.find z = some r := by
  constructor
  · rintro ⟨r', h1, h2⟩
    rw [show r' = r from Option.some_inj.mp (h2.symm.trans hr)] at h1
    exact h1
  · intro h
    exact ⟨r, h, hr⟩

theorem mem_interiorCells {width height : Nat} {c : Cell} :
    c ∈ interiorCells width height ↔ Interior width height c := by
  obtain ⟨x, y⟩ := c
  simp [interiorCells, Interior, Finset.mem_product, Finset.mem_Icc, and_assoc]

/-- Preservation of the bridge property when inserting an edge between two
previously disconnected cells. -/
theorem cut_insert {ow : Finset Wall} {w : Wall}
    (hw : w ∉ ow) (hNoConn : ¬ OpenConn ow w.1 w.2)
    (hCut : ∀ w' ∈ ow, ¬ OpenConn (ow.erase w') w'.1 w'.2) :
    ∀ w' ∈ insert w ow, ¬ OpenConn ((insert w ow).erase w') w'.1 w'.2 := by
  intro w' hw' hconn
  rcases Finset.mem_insert.mp hw' with rfl | hw'mem
  · rw [Finset.erase_insert hw] at hconn
    exact hNoConn hconn
  · have hne : w ≠ w' := fun hc => hw (hc ▸ hw'mem)
    rw [Finset.erase_insert_of_ne hne] at hconn
    have hsub : ow.erase w' ⊆ ow := Finset.erase_subset _ _
    rcases openConn_insert hconn with h0 | ⟨h1, h2⟩ | ⟨h1, h2⟩
    · exact hCut w' hw'mem h0
    · exact hNoConn (openConn_trans (openConn_symm (openConn_mono hsub h1))
        (openConn_trans (openConn_single hw'mem)
          (openConn_symm (openConn_mono hsub h2))))
    · exact hNoConn (openConn_trans (openConn_mono hsub h2)
        (openConn_trans (openConn_symm (openConn_single hw'mem))
          (openConn_mono hsub h1)))

/-- The Kruskal loop preserves the generation invariant, never panics, only
grows the union-find equivalence, and has unified the two sides of every
processed eligible wall when it finishes. -/
theorem generateLoop_spec (width height : Nat) :
    ∀ (ws : List Wall) (uf : UnionFind) (ow : Finset Wall),
      (∀ w ∈ ws, w ∈ mkWalls width height) →
      GenInv width height uf ow →
      ∃ uf' ow', generateLoop width height ws uf ow = some (uf', ow') ∧
        GenInv width height uf' ow' ∧
        (∀ x y, SameSet uf x y → SameSet uf' x y) ∧
        (∀ w ∈ ws, skipWall width height w = false →
          SameSet uf' (cellId width w.1) (cellId width w.2)) := by
  intro ws
  induction ws with
  | nil =>
    intro uf ow _ hinv
    exact ⟨uf, ow, rfl, hinv, fun _ _ h => h, by intro w hw; cases hw⟩
  | cons w ws ih =>
    intro uf ow hmem hinv
    have hmemRest : ∀ w' ∈ ws, w' ∈ mkWalls width height :=
      fun w' hw' => hmem w' (List.mem_cons_of_mem _ hw')
    by_cases hskip : skipWall width height w = true
    · have hloop : generateLoop width height (w :: ws) uf ow
          = generateLoop width height ws uf ow := by
        simp [generateLoop, hskip]
      obtain ⟨uf', ow', hrun, hinv', hmono, hproc⟩ := ih uf ow hmemRest hinv
      refine ⟨uf', ow', by rw [hloop]; exact hrun, hinv', hmono, ?_⟩
      intro w' hw' hskip'
      rcases List.mem_cons.mp hw' with rfl | hw'
      · rw [hskip'] at hskip
        exact Bool.noConfusion hskip
      · exact hproc w' hw' hskip'
    · have hskipf : skipWall width height w = false := by
        cases hv : skipWall width height w
        · rfl
        · exact absurd hv hskip
      obtain ⟨hlen, hF, hOwWall, hCut, hIff, hCard⟩ := hinv
      have hwmk : w ∈ mkWalls width height := hmem w (List.mem_cons_self w ws)
      obtain ⟨hI1, hI2⟩ := eligible_wall_shape hwmk hskipf
      have hid1lt : cellId width w.1 < uf.parent.length := by
        rw [hlen]
        obtain ⟨a, b, c, d⟩ := hI1
        exact cellId_lt (by omega) (by omega)
      have hid2lt : cellId width w.2 < uf.parent.length := by
        rw [hlen]
        obtain ⟨a, b, c, d⟩ := hI2
        exact cellId_lt (by omega) (by omega)
      obtain ⟨s1, hs1⟩ := find_total hF hid1lt
      obtain ⟨s2, hs2⟩ := find_total hF hid2lt
      have hs1Root := (find_root hs1).1
      have hs2Root := (find_root hs2).1
      have hs1lt := (find_root hs1).2
      have hs2lt := (find_root hs2).2
      have hfs1 : uf.find s1 = some s1 := find_self hs1Root
      have hfs2 : uf.find s2 = some s2 := find_self hs2Root
      by_cases hss : s1 = s2
      · have hloop : generateLoop width height (w :: ws) uf ow
            = generateLoop width height ws uf ow := by
          simp [generateLoop, hskipf, hs1, hs2, hss]
        obtain ⟨uf', ow', hrun, hinv', hmono, hproc⟩ :=
          ih uf ow hmemRest ⟨hlen, hF, hOwWall, hCut, hIff, hCard⟩
        refine ⟨uf', ow', by rw [hloop]; exact hrun, hinv', hmono, ?_⟩
        intro w' hw' hskip'
        rcases List.mem_cons.mp hw' with rfl | hw'
        · exact hmono _ _ ⟨s1, hs1, by rw [hs2, hss]⟩
        · exact hproc w' hw' hskip'
      · obtain ⟨uf1, hu, hlen1, hF1, hiff1⟩ := union_spec hF hs1lt hs2lt
        have hswap := union_find_swap hF hs1lt hs2lt hu
        have hloop : generateLoop width height (w :: ws) uf ow
            = generateLoop width height ws uf1 (insert w ow) := by
          simp [generateLoop, hskipf, hs1, hs2, hss, hu]
        have hbr1 : ∀ z, SameSet uf z s1 ↔ SameSet uf z (cellId width w.1) := by
          intro z
          rw [sameSet_iff_find_eq_some hfs1]
          constructor
          · intro h
            exact ⟨s1, h, hs1⟩
          · rintro ⟨r, h1, h2⟩
            rw [show r = s1 from Option.some_inj.mp (h2.symm.trans hs1)] at h1
            exact h1
        have hbr2 : ∀ z, SameSet uf z s2 ↔ SameSet uf z (cellId width w.2) := by
          intro z
          rw [sameSet_iff_find_eq_some hfs2]
          constructor
          · intro h
            exact ⟨s2, h, hs2⟩
          · rintro ⟨r, h1, h2⟩
            rw [show r = s2 from Option.some_inj.mp (h2.symm.trans hs2)] at h1
            exact h1
        have hNoSame : ¬ SameSet uf (cellId width w.1) (cellId width w.2) := by
          rintro ⟨r, h1, h2⟩
          have e1 : s1 = r := Option.some_inj.mp (hs1.symm.trans h1)
          have e2 : s2 = r := Option.some_inj.mp (hs2.symm.trans h2)
          exact hss (e1.trans e2.symm)
        have hNoConn : ¬ OpenConn ow w.1 w.2 :=
          fun hc => hNoSame ((hIff w.1 w.2 hI1 hI2).mpr hc)
        have hwNotMem : w ∉ ow := fun hc => hNoConn (openConn_single hc)
        have hlen1' : uf1.parent.length = (width + 2) * (height + 2) := by
          rw [hlen1, hlen]
        have hOwWall1 : ∀ w' ∈ insert w ow,
            w' ∈ mkWalls width height ∧ skipWall width height w' = false := by
          intro w' hw'
          rcases Finset.mem_insert.mp hw' with rfl | hw'
          · exact ⟨hwmk, hskipf⟩
          · exact hOwWall w' hw'
        have hCut1 := cut_insert hwNotMem hNoConn hCut
        have hIff1 : ∀ c d, Interior width height c → Interior width height d →
            (SameSet uf1 (cellId width c) (cellId width d) ↔
              OpenConn (insert w ow) c d) := by
          intro c d hc hd
          rw [hiff1 (cellId width c) (cellId width d)]
          constructor
          · rintro (h0 | ⟨h1, h2⟩ | ⟨h1, h2⟩)
            · exact openConn_mono (Finset.subset_insert _ _)
                ((hIff c d hc hd).mp h0)
            · have hc1 : OpenConn ow c w.1 :=
                (hIff c w.1 hc hI1).mp ((hbr1 _).mp h1)
              have hd2 : OpenConn ow w.2 d := openConn_symm
                ((hIff d w.2 hd hI2).mp ((hbr2 _).mp (sameSet_symm h2)))
              exact openConn_trans (openConn_mono (Finset.subset_insert _ _) hc1)
                (openConn_trans (openConn_single (Finset.mem_insert_self w ow))
                  (openConn_mono (Finset.subset_insert _ _) hd2))
            · have hc2 : OpenConn ow c w.2 :=
                (hIff c w.2 hc hI2).mp ((hbr2 _).mp h1)
              have hd1 : OpenConn ow w.1 d := openConn_symm
                ((hIff d w.1 hd hI1).mp ((hbr1 _).mp (sameSet_symm h2)))
              exact openConn_trans (openConn_mono (Finset.subset_insert _ _) hc2)
                (openConn_trans
                  (openConn_symm (openConn_single (Finset.mem_insert_self w ow)))
                  (openConn_mono (Finset.subset_insert _ _) hd1))
          · intro hconn
            rcases openConn_insert hconn with h0 | ⟨h1, h2⟩ | ⟨h1, h2⟩
            · exact Or.inl ((hIff c d hc hd).mpr h0)
            · refine Or.inr (Or.inl ⟨?_, ?_⟩)
              · exact (hbr1 _).mpr ((hIff c w.1 hc hI1).mpr h1)
              · exact sameSet_symm ((hbr2 _).mpr
                  ((hIff d w.2 hd hI2).mpr (openConn_symm h2)))
            · refine Or.inr (Or.inr ⟨?_, ?_⟩)
              · exact (hbr2 _).mpr ((hIff c w.2 hc hI2).mpr h1)
              · exact sameSet_symm ((hbr1 _).mpr
                  ((hIff d w.1 hd hI1).mpr (openConn_symm h2)))
        have hCard1 : (insert w ow).card + ((interiorCells width height).image
            fun c => uf1.find (cellId width c)).card
              = (interiorCells width height).card := by
          have himage : ((interiorCells width height).image
                fun c => uf1.find (cellId width c))
              = ((interiorCells width height).image
                  fun c => uf.find (cellId width c)).image
                  fun r => if r = some s1 then some s2 else r := by
            rw [Finset.image_image]
            apply Finset.image_congr
            intro c hcmem
            have hc : Interior width height c := mem_interiorCells.mp hcmem
            have hidlt : cellId width c < uf.parent.length := by
              rw [hlen]
              obtain ⟨a, b, c', d⟩ := hc
              exact cellId_lt (by omega) (by omega)
            have hsw := hswap (cellId width c) hidlt
            rw [hfs1, hfs2] at hsw
            exact hsw
          have hmem1 : (some s1 : Option Nat) ∈ (interiorCells width height).image
              (fun c => uf.find (cellId width c)) :=
            Finset.mem_image.mpr ⟨w.1, mem_interiorCells.mpr hI1, hs1⟩
          have hmem2 : (some s2 : Option Nat) ∈ (interiorCells width height).image
              (fun c => uf.find (cellId width c)) :=
            Finset.mem_image.mpr ⟨w.2, mem_interiorCells.mpr hI2, hs2⟩
          have hne12 : (some s1 : Option Nat) ≠ some s2 :=
            fun hc => hss (Option.some_inj.mp hc)
          have hmerge := image_merge_card hmem1 hmem2 hne12
          rw [himage, Finset.card_insert_of_not_mem hwNotMem]
          omega
        obtain ⟨uf', ow', hrun, hinv', hmono, hproc⟩ :=
          ih uf1 (insert w ow) hmemRest ⟨hlen1', hF1, hOwWall1, hCut1, hIff1, hCard1⟩
        have hstep : ∀ x y, SameSet uf x y → SameSet uf1 x y :=
          fun x y h => (hiff1 x y).mpr (Or.inl h)
        refine ⟨uf', ow', by rw [hloop]; exact hrun, hinv',
          fun x y h => hmono x y (hstep x y h), ?_⟩
        intro w' hw' hskip'
        rcases List.mem_cons.mp hw' with rfl | hw'
        · exact hmono _ _ ((hiff1 _ _).mpr
            (Or.inr (Or.inl ⟨⟨s1, hs1, hfs1⟩, ⟨s2, hfs2, hs2⟩⟩)))
        · exact hproc w' hw' hskip'

theorem interiorCells_card (width height : Nat) :
    (interiorCells width height).card = width * height := by
  simp [interiorCells, Nat.card_Icc]

/-- The generation invariant holds before the Kruskal loop starts. -/
theorem genInv_init (width height : Nat) :
    GenInv width height (UnionFind.new ((width + 2) * (height + 2))) ∅ := by
  refine ⟨new_parent_length _, forest_new _, ?_, ?_, ?_, ?_⟩
  · intro w hw
    exact absurd hw (Finset.not_mem_empty w)
  · intro w hw
    exact absurd hw (Finset.not_mem_empty w)
  · intro c d hc hd
    have hclt : cellId width c < (width + 2) * (height + 2) := by
      obtain ⟨a, b, c', d'⟩ := hc
      exact cellId_lt (by omega) (by omega)
    have hdlt : cellId width d < (width + 2) * (height + 2) := by
      obtain ⟨a, b, c', d'⟩ := hd
      exact cellId_lt (by omega) (by omega)
    constructor
    · rintro ⟨r, h1, h2⟩
      rw [find_new hclt] at h1
      rw [find_new hdlt] at h2
      have hcd : cellId width c = cellId width d :=
        (Option.some_inj.mp h1).trans (Option.some_inj.mp h2).symm
      have : c = d := by
        obtain ⟨a, b, c', d'⟩ := hc
        obtain ⟨a', b', c'', d''⟩ := hd
        exact cellId_inj (by omega) (by omega) hcd
      rw [this]
      exact openConn_refl d
    · intro hconn
      rw [openConn_empty hconn]
      exact ⟨cellId width d, find_new hdlt, find_new hdlt⟩
  · simp only [Finset.card_empty, Nat.zero_add]
    apply Finset.card_image_of_injOn
    intro c hcmem d hdmem heq
    have hc := mem_interiorCells.mp hcmem
    have hd := mem_interiorCells.mp hdmem
    have hclt : cellId width c < (width + 2) * (height + 2) := by
      obtain ⟨a, b, c', d'⟩ := hc
      exact cellId_lt (by omega) (by omega)
    have hdlt : cellId width d < (width + 2) * (height + 2) := by
      obtain ⟨a, b, c', d'⟩ := hd
      exact cellId_lt (by omega) (by omega)
    simp only [find_new hclt, find_new hdlt] at heq
    obtain ⟨a, b, c', d'⟩ := hc
    obtain ⟨a', b', c'', d''⟩ := hd
    exact cellId_inj (by omega) (by omega) (Option.some_inj.mp heq)

/-- The east and south walls between two interior cells are candidate walls
and are not skipped. -/
theorem adj_wall_eligible {width height : Nat} {c d : Cell}
    (hc : Interior width height c) (hd : Interior width height d)
    (hadj : d = (c.1 + 1, c.2) ∨ d = (c.1, c.2 + 1)) :
    (c, d) ∈ mkWalls width height ∧ skipWall width height (c, d) = false := by
  obtain ⟨hx1, hxw, hy1, hyh⟩ := hc
  rcases hadj with rfl | rfl
  · obtain ⟨hd1, hd2, hd3, hd4⟩ := hd
    constructor
    · exact mem_mkWalls.mpr ⟨c.1, c.2, hx1, hxw, hy1, hyh, Or.inl rfl⟩
    · exact skipWall_false_iff.mpr ⟨by
        show c.1 ≠ 0
        omega, by
        show c.2 ≠ 0
        omega, by
        show c.1 + 1 ≠ width + 1
        omega, by
        show c.2 ≠ height + 1
        omega⟩
  · obtain ⟨hd1, hd2, hd3, hd4⟩ := hd
    constructor
    · exact mem_mkWalls.mpr ⟨c.1, c.2, hx1, hxw, hy1, hyh, Or.inr rfl⟩
    · exact skipWall_false_iff.mpr ⟨by
        show c.1 ≠ 0
        omega, by
        show c.2 ≠ 0
        omega, by
        show c.1 ≠ width + 1
        omega, by
        show c.2 + 1 ≠ height + 1
        omega⟩

/-- If every pair of adjacent interior cells is joined, every interior cell
is connected to the corner cell `(1, 1)`. -/
theorem conn_to_origin {width height : Nat} {ow : Finset Wall}
    (hadj : ∀ c d : Cell, Interior width height c → Interior width height d →
      (d = (c.1 + 1, c.2) ∨ d = (c.1, c.2 + 1)) → OpenConn ow c d) :
    ∀ c : Cell, Interior width height c → OpenConn ow ((1, 1) : Cell) c := by
  have main : ∀ n (c : Cell), c.1 + c.2 ≤ n → Interior width height c →
      OpenConn ow ((1, 1) : Cell) c := by
    intro n
    induction n with
    | zero =>
      intro c hsum hint
      obtain ⟨hx1, _, hy1, _⟩ := hint
      omega
    | succ n ihn =>
      intro c hsum hint
      obtain ⟨hx1, hxw, hy1, hyh⟩ := hint
      by_cases hx : c.1 = 1
      · by_cases hy : c.2 = 1
        · have hc11 : c = ((1, 1) : Cell) := Prod.ext hx hy
          rw [hc11]
          exact openConn_refl _
        · have hprev : Interior width height ((c.1, c.2 - 1) : Cell) :=
            ⟨hx1, hxw, by omega, by omega⟩
          have hstep : OpenConn ow (c.1, c.2 - 1) c :=
            hadj (c.1, c.2 - 1) c hprev ⟨hx1, hxw, hy1, hyh⟩
              (Or.inr (Prod.ext rfl (by show c.2 = c.2 - 1 + 1; omega)))
          exact openConn_trans (ihn (c.1, c.2 - 1) (by simp; omega) hprev) hstep
      · have hprev : Interior width height ((c.1 - 1, c.2) : Cell) :=
          ⟨by omega, by omega, hy1, hyh⟩
        have hstep : OpenConn ow (c.1 - 1, c.2) c :=
          hadj (c.1 - 1, c.2) c hprev ⟨hx1, hxw, hy1, hyh⟩
            (Or.inl (Prod.ext (by show c.1 = c.1 - 1 + 1; omega) rfl))
        exact openConn_trans (ihn (c.1 - 1, c.2) (by simp; omega) hprev) hstep
  intro c hint
  exact main (c.1 + c.2) c (Nat.le_refl _) hint

/-- Full specification of `Maze::new` followed by `Maze::generate`: the run
succeeds and the open walls form a spanning tree of the interior grid. -/
theorem generate_spec (width height : Nat) (rnd : Nat → Nat → Nat)
    (wall_list : List Wall)
    (hperm : wall_list.Perm (mkWalls width height).toList) :
    ∃ m', (Maze.new width height rnd).generate wall_list = some m' ∧
      m'.width = width ∧ m'.height = height ∧
      m'.walls = mkWalls width height ∧
      m'.stickiness = mkStickiness width height rnd ∧
      (∀ w ∈ m'.open_walls,
        w ∈ mkWalls width height ∧ skipWall width height w = false) ∧
      (∀ w ∈ m'.open_walls, ¬ OpenConn (m'.open_walls.erase w) w.1 w.2) ∧
      (∀ c d, Interior width height c → Interior width height d →
        OpenConn m'.open_walls c d) ∧
      m'.open_walls.card = width * height - 1 := by
  obtain ⟨uf', ow', hrun, hinv', hmono, hproc⟩ :=
    generateLoop_spec width height wall_list
      (UnionFind.new ((width + 2) * (height + 2))) ∅
      (fun w hw => Finset.mem_toList.mp (hperm.mem_iff.mp hw))
      (genInv_init width height)
  obtain ⟨hlen', hF', hOwWall', hCut', hIff', hCard'⟩ := hinv'
  have hadjconn : ∀ c d : Cell, Interior width height c →
      Interior width height d →
      (d = (c.1 + 1, c.2) ∨ d = (c.1, c.2 + 1)) → OpenConn ow' c d := by
    intro c d hc hd hadj
    obtain ⟨hmemw, hskipw⟩ := adj_wall_eligible hc hd hadj
    have hwl : (c, d) ∈ wall_list :=
      hperm.mem_iff.mpr (Finset.mem_toList.mpr hmemw)
    exact (hIff' c d hc hd).mp (hproc (c, d) hwl hskipw)
  have hconn : ∀ c d, Interior width height c → Interior width height d →
      OpenConn ow' c d := by
    intro c d hc hd
    exact openConn_trans (openConn_symm (conn_to_origin hadjconn c hc))
      (conn_to_origin hadjconn d hd)
  have hcard : ow'.card = width * height - 1 := by
    by_cases hS : (interiorCells width height).Nonempty
    · obtain ⟨c0, hc0⟩ := hS
      have hint0 := mem_interiorCells.mp hc0
      have himg : (interiorCells width height).image
          (fun c => uf'.find (cellId width c)) = {uf'.find (cellId width c0)} := by
        ext r
        simp only [Finset.mem_image, Finset.mem_singleton]
        constructor
        · rintro ⟨c, hcmem, rfl⟩
          obtain ⟨rr, h1, h2⟩ := (hIff' c c0 (mem_interiorCells.mp hcmem)
            hint0).mpr (hconn c c0 (mem_interiorCells.mp hcmem) hint0)
          rw [h1, h2]
        · rintro rfl
          exact ⟨c0, hc0, rfl⟩
      rw [himg, Finset.card_singleton] at hCard'
      have hScard := interiorCells_card width height
      have hSpos : 0 < (interiorCells width height).card :=
        Finset.card_pos.mpr ⟨c0, hc0⟩
      omega
    · rw [Finset.not_nonempty_iff_eq_empty] at hS
      have hScard := interiorCells_card width height
      rw [hS, Finset.card_empty] at hScard
      rw [hS] at hCard'
      simp only [Finset.image_empty, Finset.card_empty, Nat.add_zero] at hCard'
      omega
  refine ⟨{ Maze.new width height rnd with open_walls := ow' },
    ?_, rfl, rfl, rfl, rfl, hOwWall', hCut', hconn, hcard⟩
  show (generateLoop width height wall_list
      (UnionFind.new (((Maze.new width height rnd).width + 2) *
        ((Maze.new width height rnd).height + 2)))
      (Maze.new width height rnd).open_walls).map _ = _
  have hw : (Maze.new width height rnd).width = width := rfl
  have hh : (Maze.new width height rnd).height = height := rfl
  have ho : (Maze.new width height rnd).open_walls = ∅ := rfl
  rw [hw, hh, ho, hrun]
  rfl

theorem getD_map_range {α : Type} (n i : Nat) (f : Nat → α) (d : α) :
    ((List.range n).map f).getD i d = if i < n then f i else d := by
  by_cases h : i < n
  · rw [if_pos h, List.getD_eq_getElem?_getD, List.getElem?_map,
      List.getElem?_range h]
    rfl
  · rw [if_neg h, List.getD_eq_getElem?_getD, List.getElem?_eq_none
      (by simpa using Nat.le_of_not_lt h), Option.getD_none]

/-- Closed form of the stickiness grid built by `Maze::new`. -/
theorem stickAt_mkStickiness (width height : Nat) (rnd : Nat → Nat → Nat)
    (x y : Nat) :
    stickAt (mkStickiness width height rnd) x y =
      if y < height + 2 then
        (if x < width + 2 then
          (if isBorder width height x y then 0 else genRange19 (rnd x y))
         else 0)
      else 0 := by
  rw [stickAt, mkStickiness, getD_map_range]
  by_cases hy : y < height + 2
  · rw [if_pos hy, if_pos hy, getD_map_range]
  · rw [if_neg hy, if_neg hy]
    simp [List.getD_nil]

/-- Every stickiness cell of a fresh maze is 0 or lies in `[1, 9]`. -/
theorem stickAt_new_cases (width height : Nat) (rnd : Nat → Nat → Nat)
    (x y : Nat) :
    stickAt (mkStickiness width height rnd) x y = 0 ∨
      (1 ≤ stickAt (mkStickiness width height rnd) x y ∧
        stickAt (mkStickiness width height rnd) x y ≤ 9) := by
  rw [stickAt_mkStickiness]
  by_cases hy : y < height + 2
  · rw [if_pos hy]
    by_cases hx : x < width + 2
    · rw [if_pos hx]
      by_cases hb : isBorder width height x y
      · rw [if_pos hb]
        exact Or.inl rfl
      · rw [if_neg hb]
        refine Or.inr ⟨Nat.le_add_right 1 _, ?_⟩
        have : rnd x y % 9 < 9 := Nat.mod_lt _ (by omega)
        simp only [genRange19]
        omega
    · rw [if_neg hx]
      exact Or.inl rfl
  · rw [if_neg hy]
    exact Or.inl rfl

/-- Interior cells of a fresh maze have nonzero stickiness. -/
theorem stickAt_new_interior (width height : Nat) (rnd : Nat → Nat → Nat)
    {x y : Nat} (hx1 : 1 ≤ x) (hxw : x ≤ width) (hy1 : 1 ≤ y)
    (hyh : y ≤ height) :
    1 ≤ stickAt (mkStickiness width height rnd) x y ∧
      stickAt (mkStickiness width height rnd) x y ≤ 9 := by
  rw [stickAt_mkStickiness, if_pos (by omega), if_pos (by omega), if_neg (by
    rw [Bool.not_eq_true]
    exact isBorder_false_iff.mpr ⟨by omega, by omega, by omega, by omega⟩)]
  have : rnd x y % 9 < 9 := Nat.mod_lt _ (by omega)
  simp only [genRange19]
  omega

/-- C1: for every width ≥ 1 and height ≥ 1, after `generate()` the open
walls form a spanning tree of the interior grid: all interior cells are
connected along open walls, every open wall is a bridge (acyclicity), and
there are exactly `width * height - 1` open walls. -/
theorem c1_spanning_tree (width height : Nat) (rnd : Nat → Nat → Nat)
    (wall_list : List Wall) (_hw : 1 ≤ width) (_hh : 1 ≤ height)
    (hperm : wall_list.Perm (mkWalls width height).toList) :
    ∃ m', (Maze.new width height rnd).generate wall_list = some m' ∧
      (∀ c d, Interior width height c → Interior width height d →
        OpenConn m'.open_walls c d) ∧
      (∀ w ∈ m'.open_walls, ¬ OpenConn (m'.open_walls.erase w) w.1 w.2) ∧
      m'.open_walls.card = width * height - 1 := by
  obtain ⟨m', hgen, _, _, _, _, _, hcut, hconn, hcard⟩ :=
    generate_spec width height rnd wall_list hperm
  exact ⟨m', hgen, hconn, hcut, hcard⟩

/-- Witness for C1 on the 2-by-2 maze. -/
theorem c1_spanning_tree_witness :
    ∃ m', (Maze.new 2 2 (fun _ _ => 0)).generate ((mkWalls 2 2).toList)
        = some m' ∧
      (∀ c d, Interior 2 2 c → Interior 2 2 d →
        OpenConn m'.open_walls c d) ∧
      (∀ w ∈ m'.open_walls, ¬ OpenConn (m'.open_walls.erase w) w.1 w.2) ∧
      m'.open_walls.card = 2 * 2 - 1 :=
  c1_spanning_tree 2 2 (fun _ _ => 0) ((mkWalls 2 2).toList)
    (by omega) (by omega) (List.Perm.refl _)

/-- C3: no open wall has an endpoint on the excluded border: each open wall
((x1,y1),(x2,y2)) has x1 ≠ 0, y1 ≠ 0, x2 ≠ width+1, y2 ≠ height+1, and both
endpoints are interior cells. -/
theorem c3_no_border_endpoints (width height : Nat) (rnd : Nat → Nat → Nat)
    (wall_list : List Wall)
    (hperm : wall_list.Perm (mkWalls width height).toList) :
    ∃ m', (Maze.new width height rnd).generate wall_list = some m' ∧
      ∀ w ∈ m'.open_walls,
        w.1.1 ≠ 0 ∧ w.1.2 ≠ 0 ∧ w.2.1 ≠ width + 1 ∧ w.2.2 ≠ height + 1 ∧
        Interior width height w.1 ∧ Interior width height w.2 := by
  obtain ⟨m', hgen, _, _, _, _, hOw, _, _, _⟩ :=
    generate_spec width height rnd wall_list hperm
  refine ⟨m', hgen, ?_⟩
  intro w hw
  obtain ⟨hmem, hskip⟩ := hOw w hw
  obtain ⟨h1, h2, h3, h4⟩ := skipWall_false_iff.mp hskip
  obtain ⟨hi1, hi2⟩ := eligible_wall_shape hmem hskip
  exact ⟨h1, h2, h3, h4, hi1, hi2⟩

/-- Witness for C3 on the 2-by-1 maze. -/
theorem c3_no_border_endpoints_witness :
    ∃ m', (Maze.new 2 1 (fun _ _ => 0)).generate ((mkWalls 2 1).toList)
        = some m' ∧
      ∀ w ∈ m'.open_walls,
        w.1.1 ≠ 0 ∧ w.1.2 ≠ 0 ∧ w.2.1 ≠ 2 + 1 ∧ w.2.2 ≠ 1 + 1 ∧
        Interior 2 1 w.1 ∧ Interior 2 1 w.2 :=
  c3_no_border_endpoints 2 1 (fun _ _ => 0) ((mkWalls 2 1).toList)
    (List.Perm.refl _)

/-- C6: with width = 0 or height = 0 the grid is border-only: there are no
interior cells (all stickiness is the border sentinel 0), the wall set is
empty, and `generate` runs on the empty wall list without failing, leaving
no open wall. -/
theorem c6_degenerate_no_panic (width height : Nat) (rnd : Nat → Nat → Nat)
    (h0 : width = 0 ∨ height = 0) :
    (Maze.new width height rnd).walls = ∅ ∧
    (∀ x y, stickAt (Maze.new width height rnd).stickiness x y = 0) ∧
    (∀ wall_list, wall_list.Perm ((Maze.new width height rnd).walls).toList →
      (Maze.new width height rnd).generate wall_list =
        some { Maze.new width height rnd with open_walls := ∅ }) := by
  have hwalls : mkWalls width height = ∅ := by
    ext w
    simp only [Finset.not_mem_empty, iff_false]
    intro hw
    obtain ⟨x, y, hx1, hxw, hy1, hyh, _⟩ := mem_mkWalls.mp hw
    rcases h0 with rfl | rfl
    · omega
    · omega
  refine ⟨hwalls, ?_, ?_⟩
  · intro x y
    show stickAt (mkStickiness width height rnd) x y = 0
    rw [stickAt_mkStickiness]
    by_cases hy : y < height + 2
    · rw [if_pos hy]
      by_cases hx : x < width + 2
      · rw [if_pos hx]
        have hb : isBorder width height x y = true := by
          simp only [isBorder, Bool.or_eq_true, beq_iff_eq]
          rcases h0 with rfl | rfl
          · omega
          · omega
        rw [if_pos hb]
      · rw [if_neg hx]
    · rw [if_neg hy]
  · intro wall_list hperm
    have hnil : wall_list = [] := by
      have : ((Maze.new width height rnd).walls).toList = [] := by
        show (mkWalls width height).toList = []
        rw [hwalls]
        exact Finset.toList_empty
      rw [this] at hperm
      exact List.perm_nil.mp hperm
    rw [hnil]
    rfl

/-- Witness for C6 at width = 0, height = 3. -/
theorem c6_degenerate_no_panic_witness :
    (Maze.new 0 3 (fun _ _ => 0)).walls = ∅ ∧
    (∀ x y, stickAt (Maze.new 0 3 (fun _ _ => 0)).stickiness x y = 0) ∧
    (∀ wall_list, wall_list.Perm ((Maze.new 0 3 (fun _ _ => 0)).walls).toList →
      (Maze.new 0 3 (fun _ _ => 0)).generate wall_list =
        some { Maze.new 0 3 (fun _ _ => 0) with open_walls := ∅ }) :=
  c6_degenerate_no_panic 0 3 (fun _ _ => 0) (Or.inl rfl)

/-- C7: generation terminates and never fails: the loop over any
permutation of the finite wall list returns `some`, and on every forest
state root chasing in `find` reaches a root. -/
theorem c7_generate_terminates (width height : Nat) (rnd : Nat → Nat → Nat)
    (wall_list : List Wall)
    (hperm : wall_list.Perm (mkWalls width height).toList) :
    (∃ m', (Maze.new width height rnd).generate wall_list = some m') ∧
    (∀ uf : UnionFind, Forest uf.parent → ∀ x, x < uf.parent.length →
      ∃ r, uf.find x = some r) := by
  obtain ⟨m', hgen, _⟩ := generate_spec width height rnd wall_list hperm
  exact ⟨⟨m', hgen⟩, fun _ hF _ hx => find_total hF hx⟩

/-- Witness for C7 on the 3-by-3 maze. -/
theorem c7_generate_terminates_witness :
    (∃ m', (Maze.new 3 3 (fun _ _ => 1)).generate ((mkWalls 3 3).toList)
      = some m') ∧
    (∀ uf : UnionFind, Forest uf.parent → ∀ x, x < uf.parent.length →
      ∃ r, uf.find x = some r) :=
  c7_generate_terminates 3 3 (fun _ _ => 1) ((mkWalls 3 3).toList)
    (List.Perm.refl _)

/-- C8: the open-wall set is a deterministic function of the shuffled wall
sequence: the Kruskal loop run on the same wall list from two freshly
constructed mazes of the same dimensions (even with different stickiness
randomness) produces identical open-wall sets. -/
theorem c8_deterministic (width height : Nat) (rnd1 rnd2 : Nat → Nat → Nat)
    (wall_list : List Wall) :
    ((Maze.new width height rnd1).generate wall_list).map Maze.open_walls =
      ((Maze.new width height rnd2).generate wall_list).map Maze.open_walls := by
  show (((generateLoop width height wall_list _ _).map _).map _ : Option (Finset Wall))
      = ((generateLoop width height wall_list _ _).map _).map _
  rw [Option.map_map, Option.map_map]
  rfl

/-! ### `add_map` infrastructure -/

theorem getD_set {α : Type} (l : List α) (i j : Nat) (a d : α) :
    (l.set i a).getD j d = if j = i ∧ i < l.length then a else l.getD j d := by
  rw [List.getD_eq_getElem?_getD, List.getElem?_set]
  by_cases hij : i = j
  · subst hij
    by_cases hlt : i < l.length
    · rw [if_pos rfl, if_pos hlt, if_pos ⟨rfl, hlt⟩]
      rfl
    · rw [if_pos rfl, if_neg hlt, if_neg (fun hc => hlt hc.2),
        List.getD_eq_getElem?_getD,
        List.getElem?_eq_none (Nat.le_of_not_lt hlt)]
  · rw [if_neg hij, if_neg (fun hc => hij hc.1.symm),
      List.getD_eq_getElem?_getD]

theorem stickAt_setStick (g : List (List Nat)) {x y : Nat} (v x' y' : Nat)
    (hy : y < g.length) (hx : x < (g.getD y []).length) :
    stickAt (setStick g x y v) x' y' =
      if x' = x ∧ y' = y then v else stickAt g x' y' := by
  simp only [stickAt, setStick]
  rw [getD_set]
  by_cases hyy : y' = y
  · subst hyy
    rw [if_pos ⟨rfl, hy⟩, getD_set]
    by_cases hxx : x' = x
    · subst hxx
      rw [if_pos ⟨rfl, hx⟩, if_pos ⟨rfl, rfl⟩]
    · rw [if_neg (fun hc => hxx hc.1), if_neg (fun hc => hxx hc.1)]
  · rw [if_neg (fun hc => hyy hc.1), if_neg (fun hc => hyy hc.2)]

theorem filterMap_if_all {α β : Type} (l : List α) (p : α → Prop)
    [DecidablePred p] (f : α → β) (h : ∀ a ∈ l, p a) :
    (l.filterMap fun a => if p a then some (f a) else none) = l.map f := by
  induction l with
  | nil => rfl
  | cons a l ih =>
    have hpa : p a := h a (List.mem_cons_self a l)
    simp only [List.filterMap_cons, if_pos hpa, List.map_cons]
    rw [ih (fun a ha => h a (List.mem_cons_of_mem _ ha))]

theorem flatMap_congr {α β : Type} {l : List α} {f g : α → List β}
    (h : ∀ a ∈ l, f a = g a) : l.flatMap f = l.flatMap g := by
  induction l with
  | nil => rfl
  | cons a l ih =>
    rw [List.flatMap_cons, List.flatMap_cons, h a (List.mem_cons_self a l),
      ih (fun a ha => h a (List.mem_cons_of_mem _ ha))]

/-- On a fresh maze every interior stickiness value is nonzero, so the
collection loop of `add_map` keeps every interior cell, row by row. -/
theorem nonWallCells_new (width height : Nat) (rnd : Nat → Nat → Nat) :
    nonWallCells (Maze.new width height rnd) =
      (List.range' 1 height).flatMap fun y =>
        (List.range' 1 width).map fun x => ((x, y) : Cell) := by
  show ((List.range' 1 height).flatMap fun y =>
      (List.range' 1 width).filterMap fun x =>
        if stickAt (mkStickiness width height rnd) x y ≠ 0
        then some ((x, y) : Cell) else none) = _
  apply flatMap_congr
  intro y hy
  obtain ⟨hy1, hyh⟩ := List.mem_range'_1.mp hy
  apply filterMap_if_all
  intro x hx
  obtain ⟨hx1, hxw⟩ := List.mem_range'_1.mp hx
  have := stickAt_new_interior width height rnd hx1 (by omega) hy1 (by omega)
  omega

theorem flatMap_row_length (w : Nat) (l : List Nat) :
    (l.flatMap fun y => (List.range' 1 w).map fun x => ((x, y) : Cell)).length
      = w * l.length := by
  induction l with
  | nil => simp
  | cons a l ih =>
    rw [List.flatMap_cons, List.length_append, List.length_map,
      List.length_range', ih, List.length_cons, Nat.mul_succ]
    omega

theorem nonWallCells_new_length (width height : Nat) (rnd : Nat → Nat → Nat) :
    (nonWallCells (Maze.new width height rnd)).length = width * height := by
  rw [nonWallCells_new, flatMap_row_length, List.length_range',
    Nat.mul_comm]

theorem flatMap_row_nodup (w : Nat) (l : List Nat) (hl : l.Nodup) :
    (l.flatMap fun y => (List.range' 1 w).map fun x => ((x, y) : Cell)).Nodup := by
  induction l with
  | nil => exact List.nodup_nil
  | cons a l ih =>
    rw [List.flatMap_cons]
    obtain ⟨hal, hnd⟩ := List.nodup_cons.mp hl
    refine List.Nodup.append ?_ (ih hnd) ?_
    · exact (List.nodup_range' 1 w).map
        (fun x1 x2 h => congrArg Prod.fst h)
    · intro p hp1 hp2
      obtain ⟨x, _, rfl⟩ := List.mem_map.mp hp1
      obtain ⟨y, hyl, hpy⟩ := List.mem_flatMap.mp hp2
      obtain ⟨x', _, hxy⟩ := List.mem_map.mp hpy
      have : y = a := congrArg Prod.snd hxy
      exact hal (this ▸ hyl)

theorem nonWallCells_new_nodup (width height : Nat) (rnd : Nat → Nat → Nat) :
    (nonWallCells (Maze.new width height rnd)).Nodup := by
  rw [nonWallCells_new]
  exact flatMap_row_nodup width _ (List.nodup_range' 1 height)

theorem mem_nonWallCells_new {width height : Nat} {rnd : Nat → Nat → Nat}
    {c : Cell} :
    c ∈ nonWallCells (Maze.new width height rnd) ↔
      Interior width height c := by
  rw [nonWallCells_new]
  constructor
  · intro h
    obtain ⟨y, hy, hc⟩ := List.mem_flatMap.mp h
    obtain ⟨x, hx, rfl⟩ := List.mem_map.mp hc
    obtain ⟨hy1, hyh⟩ := List.mem_range'_1.mp hy
    obtain ⟨hx1, hxw⟩ := List.mem_range'_1.mp hx
    exact ⟨hx1, by omega, hy1, by omega⟩
  · rintro ⟨hx1, hxw, hy1, hyh⟩
    refine List.mem_flatMap.mpr ⟨c.2, List.mem_range'_1.mpr ⟨hy1, by omega⟩, ?_⟩
    refine List.mem_map.mpr ⟨c.1, List.mem_range'_1.mpr ⟨hx1, by omega⟩, ?_⟩
    exact Prod.ext rfl rfl

theorem mkStickiness_length (width height : Nat) (rnd : Nat → Nat → Nat) :
    (mkStickiness width height rnd).length = height + 2 := by
  simp [mkStickiness]

theorem mkStickiness_row_length (width height : Nat) (rnd : Nat → Nat → Nat)
    {y : Nat} (hy : y < height + 2) :
    ((mkStickiness width height rnd).getD y []).length = width + 2 := by
  rw [mkStickiness, getD_map_range, if_pos hy]
  simp

theorem setStick_length (g : List (List Nat)) (x y v : Nat) :
    (setStick g x y v).length = g.length :=
  List.length_set g y _

theorem setStick_row_length (g : List (List Nat)) (x y v y' : Nat) :
    ((setStick g x y v).getD y' []).length = (g.getD y' []).length := by
  rw [setStick, getD_set]
  by_cases h : y' = y ∧ y < g.length
  · rw [if_pos h]
    obtain ⟨rfl, _⟩ := h
    exact List.length_set _ _ _
  · rw [if_neg h]

/-- Evaluation of `add_map` when at least two cells were collected: the
last cell receives the start marker 83, the second to last the goal marker
71, and the warning flag tests the remaining length against 2. -/
theorem add_map_eval (m : Maze) (cells : List Cell) (h2 : 2 ≤ cells.length)
    (hne : cells ≠ []) (hne1 : cells.dropLast ≠ []) :
    m.add_map cells =
      ({ m with
          stickiness :=
            setStick
              (setStick m.stickiness (cells.getLast hne).1
                (cells.getLast hne).2 83)
              (cells.dropLast.getLast hne1).1
              (cells.dropLast.getLast hne1).2 71 },
        decide (cells.dropLast.dropLast.length < 2)) := by
  have hpop1 : popBack cells = some (cells.getLast hne, cells.dropLast) := by
    rw [popBack, List.getLast?_eq_getLast cells hne]
  have hpop2 : popBack cells.dropLast
      = some (cells.dropLast.getLast hne1, cells.dropLast.dropLast) := by
    rw [popBack, List.getLast?_eq_getLast _ hne1]
  have hlen1 : cells.dropLast.length = cells.length - 1 :=
    List.length_dropLast cells
  simp only [Maze.add_map, hpop1, hpop2,
    if_pos (show 1 ≤ cells.length by omega),
    if_pos (show 1 ≤ cells.dropLast.length by omega)]

/-- C5: on a maze whose interior has at least 2 cells, `add_map` marks
exactly one cell with the start marker and exactly one distinct cell with
the goal marker, both interior, overwriting those two weights and nothing
else. -/
theorem c5_markers_unique (width height : Nat) (rnd : Nat → Nat → Nat)
    (cells : List Cell) (h2 : 2 ≤ width * height)
    (hperm : cells.Perm (nonWallCells (Maze.new width height rnd))) :
    ∃ cS cG : Cell, cS ≠ cG ∧ Interior width height cS ∧
      Interior width height cG ∧
      (∀ x y, stickAt
          ((Maze.new width height rnd).add_map cells).1.stickiness x y = 83
        ↔ ((x, y) : Cell) = cS) ∧
      (∀ x y, stickAt
          ((Maze.new width height rnd).add_map cells).1.stickiness x y = 71
        ↔ ((x, y) : Cell) = cG) ∧
      (∀ x y, ((x, y) : Cell) ≠ cS → ((x, y) : Cell) ≠ cG →
        stickAt ((Maze.new width height rnd).add_map cells).1.stickiness x y
          = stickAt (Maze.new width height rnd).stickiness x y) := by
  have hlen : cells.length = width * height := by
    rw [hperm.length_eq, nonWallCells_new_length]
  have hne : cells ≠ [] := List.ne_nil_of_length_pos (by omega)
  have hlen1 : cells.dropLast.length = cells.length - 1 :=
    List.length_dropLast cells
  have hne1 : cells.dropLast ≠ [] := List.ne_nil_of_length_pos (by omega)
  have hnd : cells.Nodup :=
    hperm.nodup_iff.mpr (nonWallCells_new_nodup width height rnd)
  have hSmem : cells.getLast hne ∈ cells := List.getLast_mem hne
  have hGmem : cells.dropLast.getLast hne1 ∈ cells :=
    (List.dropLast_sublist cells).subset (List.getLast_mem hne1)
  have hSint : Interior width height (cells.getLast hne) :=
    mem_nonWallCells_new.mp (hperm.mem_iff.mp hSmem)
  have hGint : Interior width height (cells.dropLast.getLast hne1) :=
    mem_nonWallCells_new.mp (hperm.mem_iff.mp hGmem)
  have hSG : cells.getLast hne ≠ cells.dropLast.getLast hne1 := by
    have hconcat := List.dropLast_concat_getLast hne
    rw [← hconcat] at hnd
    have hdisj := List.disjoint_of_nodup_append hnd
    intro hc
    exact hdisj (List.getLast_mem hne1) (List.mem_singleton.mpr hc.symm)
  have heval := add_map_eval (Maze.new width height rnd) cells
    (by omega) hne hne1
  have hstick : ((Maze.new width height rnd).add_map cells).1.stickiness =
      setStick (setStick (mkStickiness width height rnd)
          (cells.getLast hne).1 (cells.getLast hne).2 83)
        (cells.dropLast.getLast hne1).1 (cells.dropLast.getLast hne1).2 71 := by
    rw [heval]
    rfl
  obtain ⟨hSx1, hSxw, hSy1, hSyh⟩ := hSint
  obtain ⟨hGx1, hGxw, hGy1, hGyh⟩ := hGint
  have hSyLt : (cells.getLast hne).2 <
      (mkStickiness width height rnd).length := by
    rw [mkStickiness_length]
    omega
  have hSxLt : (cells.getLast hne).1 <
      ((mkStickiness width height rnd).getD (cells.getLast hne).2 []).length := by
    rw [mkStickiness_row_length width height rnd (by omega)]
    omega
  have hGyLt : (cells.dropLast.getLast hne1).2 <
      (setStick (mkStickiness width height rnd)
        (cells.getLast hne).1 (cells.getLast hne).2 83).length := by
    rw [setStick_length, mkStickiness_length]
    omega
  have hGxLt : (cells.dropLast.getLast hne1).1 <
      ((setStick (mkStickiness width height rnd)
          (cells.getLast hne).1 (cells.getLast hne).2 83).getD
        (cells.dropLast.getLast hne1).2 []).length := by
    rw [setStick_row_length, mkStickiness_row_length width height rnd (by omega)]
    omega
  have hval : ∀ x y,
      stickAt ((Maze.new width height rnd).add_map cells).1.stickiness x y =
        if x = (cells.dropLast.getLast hne1).1 ∧
            y = (cells.dropLast.getLast hne1).2 then 71
        else if x = (cells.getLast hne).1 ∧ y = (cells.getLast hne).2 then 83
        else stickAt (mkStickiness width height rnd) x y := by
    intro x y
    rw [hstick, stickAt_setStick _ _ _ _ hGyLt hGxLt]
    by_cases hG : x = (cells.dropLast.getLast hne1).1 ∧
        y = (cells.dropLast.getLast hne1).2
    · rw [if_pos hG, if_pos hG]
    · rw [if_neg hG, if_neg hG, stickAt_setStick _ _ _ _ hSyLt hSxLt]
  have hpairS : ∀ x y : Nat,
      (((x, y) : Cell) = cells.getLast hne) ↔
        (x = (cells.getLast hne).1 ∧ y = (cells.getLast hne).2) :=
    fun x y => Prod.ext_iff
  have hpairG : ∀ x y : Nat,
      (((x, y) : Cell) = cells.dropLast.getLast hne1) ↔
        (x = (cells.dropLast.getLast hne1).1 ∧
          y = (cells.dropLast.getLast hne1).2) :=
    fun x y => Prod.ext_iff
  have hSGpair : ¬((cells.getLast hne).1 = (cells.dropLast.getLast hne1).1 ∧
      (cells.getLast hne).2 = (cells.dropLast.getLast hne1).2) := by
    rintro ⟨h1, h2⟩
    exact hSG (Prod.ext h1 h2)
  refine ⟨cells.getLast hne, cells.dropLast.getLast hne1, hSG,
    ⟨hSx1, hSxw, hSy1, hSyh⟩, ⟨hGx1, hGxw, hGy1, hGyh⟩, ?_, ?_, ?_⟩
  · intro x y
    rw [hval, hpairS]
    by_cases hG : x = (cells.dropLast.getLast hne1).1 ∧
        y = (cells.dropLast.getLast hne1).2
    · rw [if_pos hG]
      constructor
      · intro h
        exact absurd h (by omega)
      · rintro ⟨h1, h2⟩
        obtain ⟨hg1, hg2⟩ := hG
        exact absurd ⟨h1.symm.trans hg1, h2.symm.trans hg2⟩ hSGpair
    · rw [if_neg hG]
      by_cases hS : x = (cells.getLast hne).1 ∧ y = (cells.getLast hne).2
      · rw [if_pos hS]
        exact iff_of_true rfl hS
      · rw [if_neg hS]
        constructor
        · intro h
          rcases stickAt_new_cases width height rnd x y with h0 | ⟨ha, hb⟩
          · omega
          · omega
        · intro h
          exact absurd h hS
  · intro x y
    rw [hval, hpairG]
    by_cases hG : x = (cells.dropLast.getLast hne1).1 ∧
        y = (cells.dropLast.getLast hne1).2
    · rw [if_pos hG]
      exact iff_of_true rfl hG
    · rw [if_neg hG]
      by_cases hS : x = (cells.getLast hne).1 ∧ y = (cells.getLast hne).2
      · rw [if_pos hS]
        constructor
        · intro h
          exact absurd h (by omega)
        · intro h
          exact absurd h hG
      · rw [if_neg hS]
        constructor
        · intro h
          rcases stickAt_new_cases width height rnd x y with h0 | ⟨ha, hb⟩
          · omega
          · omega
        · intro h
          exact absurd h hG
  · intro x y hxS hxG
    rw [hval, if_neg (fun hc => hxG ((hpairG x y).mpr hc)),
      if_neg (fun hc => hxS ((hpairS x y).mpr hc))]
    rfl

/-- Witness for C5 on the 3-by-3 maze with the identity shuffle. -/
theorem c5_markers_unique_witness :
    ∃ cS cG : Cell, cS ≠ cG ∧ Interior 3 3 cS ∧ Interior 3 3 cG ∧
      (∀ x y, stickAt ((Maze.new 3 3 (fun _ _ => 4)).add_map
          (nonWallCells (Maze.new 3 3 (fun _ _ => 4)))).1.stickiness x y = 83
        ↔ ((x, y) : Cell) = cS) ∧
      (∀ x y, stickAt ((Maze.new 3 3 (fun _ _ => 4)).add_map
          (nonWallCells (Maze.new 3 3 (fun _ _ => 4)))).1.stickiness x y = 71
        ↔ ((x, y) : Cell) = cG) ∧
      (∀ x y, ((x, y) : Cell) ≠ cS → ((x, y) : Cell) ≠ cG →
        stickAt ((Maze.new 3 3 (fun _ _ => 4)).add_map
            (nonWallCells (Maze.new 3 3 (fun _ _ => 4)))).1.stickiness x y
          = stickAt (Maze.new 3 3 (fun _ _ => 4)).stickiness x y) :=
  c5_markers_unique 3 3 (fun _ _ => 4)
    (nonWallCells (Maze.new 3 3 (fun _ _ => 4))) (by omega) (List.Perm.refl _)

/-- C4 fails on the code: with exactly two eligible interior cells
(width 1, height 2, identity shuffle) `add_map` places both markers and
still reports the insufficient-cells warning, because the length test runs
only after the two pops. -/
theorem c4_warning_despite_two_cells :
    (nonWallCells (Maze.new 1 2 (fun _ _ => 0))).length = 2 ∧
    ((Maze.new 1 2 (fun _ _ => 0)).add_map
      (nonWallCells (Maze.new 1 2 (fun _ _ => 0)))).2 = true ∧
    stickAt ((Maze.new 1 2 (fun _ _ => 0)).add_map
      (nonWallCells (Maze.new 1 2 (fun _ _ => 0)))).1.stickiness 1 2 = 83 ∧
    stickAt ((Maze.new 1 2 (fun _ _ => 0)).add_map
      (nonWallCells (Maze.new 1 2 (fun _ _ => 0)))).1.stickiness 1 1 = 71 := by
  decide

/-! ### Rendering -/

theorem mapM_option_eq_some {α β : Type} (f : α → Option β) (g : α → β)
    (l : List α) (h : ∀ a ∈ l, f a = some (g a)) :
    l.mapM f = some (l.map g) := by
  induction l with
  | nil => rfl
  | cons a l ih =>
    rw [List.mapM_cons, h a (List.mem_cons_self a l),
      ih (fun a ha => h a (List.mem_cons_of_mem _ ha))]
    rfl

theorem char_digit_bounds {v : Nat} (h1 : 1 ≤ v) (h9 : v ≤ 9) :
    49 ≤ (Char.ofNat (48 + v)).toNat ∧ (Char.ofNat (48 + v)).toNat ≤ 57 := by
  interval_cases v <;> exact (by decide)

/-- Rendering a cell of a maze whose stickiness values are all 0 or in
`[1, 9]` yields the wall character or a digit 1..9. -/
theorem renderCell_digit_cases (m : Maze)
    (hstick : ∀ x y, stickAt m.stickiness x y = 0 ∨
      (1 ≤ stickAt m.stickiness x y ∧ stickAt m.stickiness x y ≤ 9))
    (x y : Nat) :
    ∃ c, renderCell m x y = some c ∧
      (c = 'X' ∨ (49 ≤ c.toNat ∧ c.toNat ≤ 57)) := by
  rw [renderCell]
  by_cases h1 : stickAt m.stickiness x y = 0 ∨
      (((x, y), (x + 1, y)) ∉ m.open_walls ∧ ((x, y), (x, y + 1)) ∉ m.open_walls)
  · rw [if_pos h1]
    exact ⟨'X', rfl, Or.inl rfl⟩
  · rw [if_neg h1]
    have hnz : stickAt m.stickiness x y ≠ 0 := fun hc => h1 (Or.inl hc)
    rcases hstick x y with h0 | ⟨ha, hb⟩
    · exact absurd h0 hnz
    rw [if_neg (by omega :
        ¬(stickAt m.stickiness x y = 83 ∨ stickAt m.stickiness x y = 71)),
      fromDigit, if_pos (by omega : stickAt m.stickiness x y < 10)]
    obtain ⟨hc1, hc2⟩ :=
      char_digit_bounds (v := stickAt m.stickiness x y) ha hb
    exact ⟨_, rfl, Or.inr ⟨hc1, hc2⟩⟩

/-- Rendering a cell never fails when every stickiness value is 0, in
`[1, 9]`, or one of the two marker bytes. -/
theorem renderCell_total (m : Maze)
    (hstick : ∀ x y, stickAt m.stickiness x y = 0 ∨
      (1 ≤ stickAt m.stickiness x y ∧ stickAt m.stickiness x y ≤ 9) ∨
      stickAt m.stickiness x y = 83 ∨ stickAt m.stickiness x y = 71)
    (x y : Nat) :
    ∃ c, renderCell m x y = some c := by
  rw [renderCell]
  by_cases h1 : stickAt m.stickiness x y = 0 ∨
      (((x, y), (x + 1, y)) ∉ m.open_walls ∧ ((x, y), (x, y + 1)) ∉ m.open_walls)
  · rw [if_pos h1]
    exact ⟨'X', rfl⟩
  · rw [if_neg h1]
    have hnz : stickAt m.stickiness x y ≠ 0 := fun hc => h1 (Or.inl hc)
    by_cases h2 : stickAt m.stickiness x y = 83 ∨ stickAt m.stickiness x y = 71
    · rw [if_pos h2]
      exact ⟨_, rfl⟩
    · rw [if_neg h2]
      rcases hstick x y with h0 | ⟨ha, hb⟩ | h83 | h71
      · exact absurd h0 hnz
      · rw [fromDigit, if_pos (by omega : stickAt m.stickiness x y < 10)]
        exact ⟨_, rfl⟩
      · exact absurd (Or.inl h83) h2
      · exact absurd (Or.inr h71) h2

/-- `print_maze` succeeds and emits `height + 2` rows of `width + 2`
characters whenever every cell renders. -/
theorem print_maze_total (m : Maze)
    (hcell : ∀ x y, ∃ c, renderCell m x y = some c) :
    ∃ rows, print_maze m = some rows ∧ rows.length = m.height + 2 ∧
      (∀ row ∈ rows, row.length = m.width + 2) ∧
      (∀ row ∈ rows, ∀ ch ∈ row, ∃ x y, renderCell m x y = some ch) := by
  have hrow : ∀ y, (List.range (m.width + 2)).mapM (fun x => renderCell m x y)
      = some ((List.range (m.width + 2)).map
          fun x => (renderCell m x y).getD 'X') := by
    intro y
    apply mapM_option_eq_some
    intro x _
    obtain ⟨c, hc⟩ := hcell x y
    rw [hc]
    rfl
  refine ⟨(List.range (m.height + 2)).map fun y =>
      (List.range (m.width + 2)).map fun x => (renderCell m x y).getD 'X',
    ?_, by simp, ?_, ?_⟩
  · rw [print_maze]
    exact mapM_option_eq_some _ _ _ (fun y _ => hrow y)
  · intro row hrow'
    obtain ⟨y, _, rfl⟩ := List.mem_map.mp hrow'
    simp
  · intro row hrow' ch hch
    obtain ⟨y, _, rfl⟩ := List.mem_map.mp hrow'
    obtain ⟨x, _, rfl⟩ := List.mem_map.mp hch
    obtain ⟨c, hc⟩ := hcell x y
    exact ⟨x, y, by rw [hc]; rfl⟩

/-- C9: for a 5-by-5 maze with no map annotation, the rendered grid has
exactly 7 rows of exactly 7 characters, each the wall marker or a digit
1..9. -/
theorem c9_render_5x5 (rnd : Nat → Nat → Nat) (wall_list : List Wall)
    (hperm : wall_list.Perm (mkWalls 5 5).toList) :
    ∃ m' rows, (Maze.new 5 5 rnd).generate wall_list = some m' ∧
      print_maze m' = some rows ∧
      rows.length = 7 ∧ (∀ row ∈ rows, row.length = 7) ∧
      (∀ row ∈ rows, ∀ ch ∈ row,
        ch = 'X' ∨ (49 ≤ ch.toNat ∧ ch.toNat ≤ 57)) := by
  obtain ⟨m', hgen, hw, hh, _, hst, _, _, _, _⟩ :=
    generate_spec 5 5 rnd wall_list hperm
  have hstick : ∀ x y, stickAt m'.stickiness x y = 0 ∨
      (1 ≤ stickAt m'.stickiness x y ∧ stickAt m'.stickiness x y ≤ 9) := by
    intro x y
    rw [hst]
    exact stickAt_new_cases 5 5 rnd x y
  obtain ⟨rows, hpm, hlen, hrows, hmem⟩ := print_maze_total m'
    (fun x y => (renderCell_digit_cases m' hstick x y).imp fun c hc => hc.1)
  refine ⟨m', rows, hgen, hpm, by rw [hlen, hh],
    fun row hr => by rw [hrows row hr, hw], ?_⟩
  intro row hr ch hch
  obtain ⟨x, y, hxy⟩ := hmem row hr ch hch
  obtain ⟨c, hc, hcase⟩ := renderCell_digit_cases m' hstick x y
  have : c = ch := Option.some_inj.mp (hc.symm.trans hxy)
  rw [← this]
  exact hcase

/-- Witness for C9. -/
theorem c9_render_5x5_witness :
    ∃ m' rows, (Maze.new 5 5 (fun x y => x + y)).generate
        ((mkWalls 5 5).toList) = some m' ∧
      print_maze m' = some rows ∧
      rows.length = 7 ∧ (∀ row ∈ rows, row.length = 7) ∧
      (∀ row ∈ rows, ∀ ch ∈ row,
        ch = 'X' ∨ (49 ≤ ch.toNat ∧ ch.toNat ≤ 57)) :=
  c9_render_5x5 (fun x y => x + y) ((mkWalls 5 5).toList) (List.Perm.refl _)

/-- C10: along the whole pipeline (`new`, `generate`, optional `add_map`)
every stickiness value is the border sentinel 0, a digit weight in `[1, 9]`,
or a marker byte 83 or 71, so rendering never hits the `unwrap` of
`char::from_digit` and is total. -/
theorem c10_render_never_panics (width height : Nat) (rnd : Nat → Nat → Nat)
    (wall_list : List Wall) (cells : List Cell)
    (hperm : wall_list.Perm (mkWalls width height).toList)
    (hcells : cells.Perm (nonWallCells (Maze.new width height rnd))) :
    ∃ m', (Maze.new width height rnd).generate wall_list = some m' ∧
      (∀ x y, stickAt m'.stickiness x y = 0 ∨
        (1 ≤ stickAt m'.stickiness x y ∧ stickAt m'.stickiness x y ≤ 9) ∨
        stickAt m'.stickiness x y = 83 ∨ stickAt m'.stickiness x y = 71) ∧
      (∃ rows, print_maze m' = some rows) ∧
      (∀ x y, stickAt (m'.add_map cells).1.stickiness x y = 0 ∨
        (1 ≤ stickAt (m'.add_map cells).1.stickiness x y ∧
          stickAt (m'.add_map cells).1.stickiness x y ≤ 9) ∨
        stickAt (m'.add_map cells).1.stickiness x y = 83 ∨
        stickAt (m'.add_map cells).1.stickiness x y = 71) ∧
      (∃ rows, print_maze (m'.add_map cells).1 = some rows) := by
  obtain ⟨m', hgen, hw, hh, _, hst, _, _, _, _⟩ :=
    generate_spec width height rnd wall_list hperm
  have hstick4 : ∀ x y, stickAt m'.stickiness x y = 0 ∨
      (1 ≤ stickAt m'.stickiness x y ∧ stickAt m'.stickiness x y ≤ 9) ∨
      stickAt m'.stickiness x y = 83 ∨ stickAt m'.stickiness x y = 71 := by
    intro x y
    rw [hst]
    rcases stickAt_new_cases width height rnd x y with h | h
    · exact Or.inl h
    · exact Or.inr (Or.inl h)
  have hstick4' : ∀ x y, stickAt (m'.add_map cells).1.stickiness x y = 0 ∨
      (1 ≤ stickAt (m'.add_map cells).1.stickiness x y ∧
        stickAt (m'.add_map cells).1.stickiness x y ≤ 9) ∨
      stickAt (m'.add_map cells).1.stickiness x y = 83 ∨
      stickAt (m'.add_map cells).1.stickiness x y = 71 := by
    rcases hlc : cells.length with _ | n
    · have hnil : cells = [] := List.length_eq_zero.mp hlc
      rw [hnil]
      intro x y
      exact hstick4 x y
    · rcases n with _ | n
      · obtain ⟨c, rfl⟩ := List.length_eq_one.mp hlc
        have hcint : Interior width height c :=
          mem_nonWallCells_new.mp
            (hcells.mem_iff.mp (List.mem_singleton_self c))
        obtain ⟨hcx1, hcxw, hcy1, hcyh⟩ := hcint
        have hyLt : c.2 < m'.stickiness.length := by
          rw [hst, mkStickiness_length]
          omega
        have hxLt : c.1 < (m'.stickiness.getD c.2 []).length := by
          rw [hst, mkStickiness_row_length width height rnd (by
            rw [hst] at *
            omega)]
          omega
        intro x y
        have heval1 : m'.add_map [c] =
            ({ m' with stickiness := setStick m'.stickiness c.1 c.2 83 },
              true) := rfl
        rw [heval1]
        show stickAt (setStick m'.stickiness c.1 c.2 83) x y = 0 ∨ _
        rw [stickAt_setStick _ _ _ _ hyLt hxLt]
        by_cases hxy : x = c.1 ∧ y = c.2
        · rw [if_pos hxy]
          exact Or.inr (Or.inr (Or.inl rfl))
        · rw [if_neg hxy]
          exact hstick4 x y
      · have h2 : 2 ≤ cells.length := by omega
        have hne : cells ≠ [] := List.ne_nil_of_length_pos (by omega)
        have hlen1 : cells.dropLast.length = cells.length - 1 :=
          List.length_dropLast cells
        have hne1 : cells.dropLast ≠ [] :=
          List.ne_nil_of_length_pos (by omega)
        have hSint : Interior width height (cells.getLast hne) :=
          mem_nonWallCells_new.mp (hcells.mem_iff.mp (List.getLast_mem hne))
        have hGint : Interior width height (cells.dropLast.getLast hne1) :=
          mem_nonWallCells_new.mp (hcells.mem_iff.mp
            ((List.dropLast_sublist cells).subset (List.getLast_mem hne1)))
        obtain ⟨hSx1, hSxw, hSy1, hSyh⟩ := hSint
        obtain ⟨hGx1, hGxw, hGy1, hGyh⟩ := hGint
        have hSyLt : (cells.getLast hne).2 < m'.stickiness.length := by
          rw [hst, mkStickiness_length]
          omega
        have hSxLt : (cells.getLast hne).1 <
            (m'.stickiness.getD (cells.getLast hne).2 []).length := by
          rw [hst, mkStickiness_row_length width height rnd (by omega)]
          omega
        have hGyLt : (cells.dropLast.getLast hne1).2 <
            (setStick m'.stickiness
              (cells.getLast hne).1 (cells.getLast hne).2 83).length := by
          rw [setStick_length, hst, mkStickiness_length]
          omega
        have hGxLt : (cells.dropLast.getLast hne1).1 <
            ((setStick m'.stickiness
                (cells.getLast hne).1 (cells.getLast hne).2 83).getD
              (cells.dropLast.getLast hne1).2 []).length := by
          rw [setStick_row_length, hst,
            mkStickiness_row_length width height rnd (by omega)]
          omega
        have heval := add_map_eval m' cells h2 hne hne1
        intro x y
        have hstickeq : (m'.add_map cells).1.stickiness =
            setStick (setStick m'.stickiness
                (cells.getLast hne).1 (cells.getLast hne).2 83)
              (cells.dropLast.getLast hne1).1
              (cells.dropLast.getLast hne1).2 71 := by
          rw [heval]
        rw [hstickeq, stickAt_setStick _ _ _ _ hGyLt hGxLt]
        by_cases hG : x = (cells.dropLast.getLast hne1).1 ∧
            y = (cells.dropLast.getLast hne1).2
        · rw [if_pos hG]
          exact Or.inr (Or.inr (Or.inr rfl))
        · rw [if_neg hG, stickAt_setStick _ _ _ _ hSyLt hSxLt]
          by_cases hS : x = (cells.getLast hne).1 ∧ y = (cells.getLast hne).2
          · rw [if_pos hS]
            exact Or.inr (Or.inr (Or.inl rfl))
          · rw [if_neg hS]
            exact hstick4 x y
  obtain ⟨rows1, hpm1, _, _, _⟩ :=
    print_maze_total m' (renderCell_total m' hstick4)
  obtain ⟨rows2, hpm2, _, _, _⟩ :=
    print_maze_total (m'.add_map cells).1
      (renderCell_total (m'.add_map cells).1 hstick4')
  exact ⟨m', hgen, hstick4, ⟨rows1, hpm1⟩, hstick4', ⟨rows2, hpm2⟩⟩

/-- Witness for C10 on the 2-by-2 maze. -/
theorem c10_render_never_panics_witness :
    ∃ m', (Maze.new 2 2 (fun _ _ => 7)).generate ((mkWalls 2 2).toList)
        = some m' ∧
      (∀ x y, stickAt m'.stickiness x y = 0 ∨
        (1 ≤ stickAt m'.stickiness x y ∧ stickAt m'.stickiness x y ≤ 9) ∨
        stickAt m'.stickiness x y = 83 ∨ stickAt m'.stickiness x y = 71) ∧
      (∃ rows, print_maze m' = some rows) ∧
      (∀ x y, stickAt (m'.add_map
          (nonWallCells (Maze.new 2 2 (fun _ _ => 7)))).1.stickiness x y = 0 ∨
        (1 ≤ stickAt (m'.add_map
            (nonWallCells (Maze.new 2 2 (fun _ _ => 7)))).1.stickiness x y ∧
          stickAt (m'.add_map
            (nonWallCells (Maze.new 2 2 (fun _ _ => 7)))).1.stickiness x y ≤ 9) ∨
        stickAt (m'.add_map
          (nonWallCells (Maze.new 2 2 (fun _ _ => 7)))).1.stickiness x y = 83 ∨
        stickAt (m'.add_map
          (nonWallCells (Maze.new 2 2 (fun _ _ => 7)))).1.stickiness x y = 71) ∧
      (∃ rows, print_maze (m'.add_map
        (nonWallCells (Maze.new 2 2 (fun _ _ => 7)))).1 = some rows) :=
  c10_render_never_panics 2 2 (fun _ _ => 7) ((mkWalls 2 2).toList)
    (nonWallCells (Maze.new 2 2 (fun _ _ => 7)))
    (List.Perm.refl _) (List.Perm.refl _)
